import Mathlib

/-!
Verification of the nonogram solver (crate `solver`, current sources under
`src/solver/src/`).  The Rust code is shallowly embedded: enums become
inductives, structs become structures, loops become recursions (with an
explicit fuel parameter where the Rust loop has no structural bound), and
the interiorly-mutable shared line cache becomes explicit state passing.
Iteration over a Rust `HashSet` has unspecified order; it is modelled here
in ascending index order, which is noted at each use site.
-/

namespace Nonogram

/-! ## Cell domain (`src/solver/src/nonogram/common.rs`) -/

/-- Mirror of `enum CellValue { Filled, Empty, Unknown }`.
The numeric values used by `as u8` casts are the declaration-order
discriminants 0, 1, 2. -/
inductive CellValue where
  | Filled
  | Empty
  | Unknown
deriving DecidableEq, Repr, Inhabited

/-- Mirror of `const KNOWN: [CellValue; 2] = [Filled, Empty]`. -/
def KNOWN : List CellValue := [CellValue.Filled, CellValue.Empty]

/-- Mirror of `CellValue::invert`.  The Rust function panics on `Unknown`
(a programmer error per the spec); that unreachable branch is modelled as
returning `Unknown`.  Every call site below passes a known value. -/
def CellValue.invert : CellValue → CellValue
  | .Filled => .Empty
  | .Empty => .Filled
  | .Unknown => .Unknown

/-- Rust discriminant of a cell value (`cell as u8`). -/
def CellValue.toNat : CellValue → Nat
  | .Filled => 0
  | .Empty => 1
  | .Unknown => 2

/-! ## Ground-truth line semantics.

These definitions are the mathematical meaning of a hints list — they are
the measuring stick for the code, written from the data-model section of
the spec: a completed line satisfies hints `h₁ … hₖ` iff its runs of
`Filled`, in order, have exactly those lengths. -/

/-- Run-length encoding of the Filled runs of a line: `runsAcc l n` is the
list of Filled-run lengths of `l` given that a run of length `n` is
currently open on the left. -/
def runsAcc : List CellValue → Nat → List Nat
  | [], 0 => []
  | [], n + 1 => [n + 1]
  | .Filled :: rest, n => runsAcc rest (n + 1)
  | _ :: rest, 0 => runsAcc rest 0
  | _ :: rest, n + 1 => (n + 1) :: runsAcc rest 0

/-- Lengths of the maximal runs of `Filled` cells, in order. -/
def runsOf (l : List CellValue) : List Nat := runsAcc l 0

/-- All ways of assigning `Filled`/`Empty` to the `Unknown` cells of a
line (known cells are kept). -/
def completionsOf : List CellValue → List (List CellValue)
  | [] => [[]]
  | .Unknown :: rest =>
    (completionsOf rest).map (CellValue.Filled :: ·) ++ (completionsOf rest).map (CellValue.Empty :: ·)
  | c :: rest => (completionsOf rest).map (c :: ·)

/-- Boolean satisfiability of a partial line against hints: some assignment
of the Unknown cells realises exactly the hinted runs. -/
def satB (cells : List CellValue) (hints : List Nat) : Bool :=
  (completionsOf cells).any (fun c => runsOf c == hints)

/-- Propositional form of a completion: `c` assigns a known value to every
cell of `cells` — `Filled` or `Empty` where `cells` is `Unknown`, the same
value where `cells` is already known. -/
def IsCompletion : List CellValue → List CellValue → Prop
  | [], [] => True
  | y :: c, x :: cells =>
    (if x = CellValue.Unknown then y = CellValue.Filled ∨ y = CellValue.Empty
      else y = x) ∧ IsCompletion c cells
  | _, _ => False

/-- A line is satisfiable iff some assignment of its Unknown cells realises
the hints. -/
def Satisfiable (cells : List CellValue) (hints : List Nat) : Prop :=
  ∃ c, IsCompletion c cells ∧ runsOf c = hints

/-- Valid arrangements of a partial line: the completions realising the hints. -/
def validCompsOf (cells : List CellValue) (hints : List Nat) : List (List CellValue) :=
  (completionsOf cells).filter (fun c => runsOf c == hints)

/-- The value cell `i` takes in every valid arrangement, when all valid
arrangements agree (and at least one exists). -/
def forcedValueAt (cells : List CellValue) (hints : List Nat) (i : Nat) : Option CellValue :=
  match validCompsOf cells hints with
  | [] => none
  | c :: rest =>
    let v := c.getD i CellValue.Unknown
    if rest.all (fun d => d.getD i CellValue.Unknown == v) then some v else none

/-! ## The verifier (`Line::do_verify`, `src/solver/src/nonogram/line.rs:51-81`).

`do_verify(hint_idx, cells_offset)` works on the suffixes
`hints[hint_idx..]` and `cells[cells_offset..]`; the embedding passes the
suffixes themselves.  The `for (start, &val) in cells[..size-hint+1]`
loop, with its early `return false` once `val == Filled`, becomes the
recursion `tryPlace`, which tries `start = 0` and then recurses on the
tail unless the head cell is `Filled`. -/

/-- Check of one loop iteration of `do_verify`: a run of length `h` may
start at the current cell — its span holds no `Empty`, the cell after it
(if any) is not `Filled`, and the rest verifies (continuation `k` is the
recursive `do_verify` call on the remaining hints). -/
def placeOk (k : List CellValue → Bool) (h : Nat) (cells : List CellValue) : Bool :=
  (cells.take h).all (fun x => x ≠ CellValue.Empty)
    && (match cells.drop h with
        | [] => true
        | c :: _ => c ≠ CellValue.Filled)
    && k (cells.drop (h + 1))

/-- Loop of `do_verify`: try to place a run of length `h` at the current
position; on failure move one cell right unless the current cell is
`Filled` (the loop's early `return false`). -/
def tryPlace (k : List CellValue → Bool) (h : Nat) : List CellValue → Bool
  | [] => if h ≤ 0 then placeOk k h [] else false
  | c :: rest =>
    if h ≤ rest.length + 1 then
      placeOk k h (c :: rest)
        || (if c = CellValue.Filled then false else tryPlace k h rest)
    else false

/-- Mirror of `Line::do_verify` on suffixes. -/
def doVerify : List CellValue → List Nat → Bool
  | [], hints => hints.isEmpty
  | cells, [] => cells.all (fun x => x ≠ CellValue.Filled)
  | cells, h :: hs =>
    if h > cells.length then false
    else tryPlace (fun rest => doVerify rest hs) h cells


/-- Mirror of `Line::verify`. -/
def verifyLine (hints : List Nat) (cells : List CellValue) : Bool :=
  doVerify cells hints

/-! ## Assumptions (`src/solver/src/nonogram/assumption.rs`) -/

/-- Mirror of `struct Assumption { coords: (usize, usize), val: CellValue }`. -/
structure Assumption where
  coords : Nat × Nat
  val : CellValue
deriving DecidableEq, Repr

/-- Rust `#[derive(Default)]`: zero coordinates and the default cell value
`Unknown`. -/
instance : Inhabited Assumption := ⟨⟨(0, 0), CellValue.Unknown⟩⟩

/-- Mirror of `Assumption::invert`. -/
def Assumption.invert (a : Assumption) : Assumption :=
  ⟨a.coords, a.val.invert⟩

/-- Mirror of `enum LineType { Row, Col }`. -/
inductive LineType where
  | Row
  | Col
deriving DecidableEq, Repr

/-- Mirror of `LineType::other`. -/
def LineType.other : LineType → LineType
  | .Row => .Col
  | .Col => .Row

/-- Mirror of `Assumption::line_idx`. -/
def Assumption.lineIdx (a : Assumption) : LineType → Nat
  | .Row => a.coords.1
  | .Col => a.coords.2

/-- Mirror of `Line::get_coords`: for a row line the assumption coordinates
are `(line_idx, idx)`, for a column line `(idx, line_idx)`. -/
def lineCoords : LineType → Nat → Nat → Nat × Nat
  | .Row, li, idx => (li, idx)
  | .Col, li, idx => (idx, li)

/-! ## The deduction loop (`Line::do_solve`, `line.rs:95-119`).

The `for idx in 0..self.cells.len()` loop over a mutating cell buffer
becomes a recursion over the list of indices; the inner `for val in KNOWN`
loop is unrolled for the two elements `Filled`, `Empty` of `KNOWN`.  A
forced cell stays set in the buffer (as in the source); an unforced cell
is restored to `Unknown`, i.e. the buffer is left unchanged. -/

/-- Loop of `Line::do_solve`: returns the final cell buffer and the forced
assumptions in emission order. -/
def solveLoop (lt : LineType) (li : Nat) (hints : List Nat)
    (cells : List CellValue) : List Nat → List CellValue × List Assumption
  | [] => (cells, [])
  | idx :: rest =>
    if cells.getD idx CellValue.Unknown ≠ CellValue.Unknown then
      solveLoop lt li hints cells rest
    else if !verifyLine hints (cells.set idx CellValue.Filled) then
      -- trial value Filled fails: the cell is forced to its inversion, Empty
      let cells2 := cells.set idx CellValue.Empty
      let (cfin, acc) := solveLoop lt li hints cells2 rest
      (cfin, ⟨lineCoords lt li idx, CellValue.Empty⟩ :: acc)
    else if !verifyLine hints (cells.set idx CellValue.Empty) then
      -- trial value Empty fails: the cell is forced to Filled
      let cells2 := cells.set idx CellValue.Filled
      let (cfin, acc) := solveLoop lt li hints cells2 rest
      (cfin, ⟨lineCoords lt li idx, CellValue.Filled⟩ :: acc)
    else
      solveLoop lt li hints cells rest

/-- Mirror of `Line::do_solve`: `none` when the line fails verification,
otherwise the forced assumptions of the single left-to-right pass. -/
def lineDoSolve (lt : LineType) (li : Nat) (hints : List Nat)
    (cells : List CellValue) : Option (List Assumption) :=
  if !verifyLine hints cells then none
  else some (solveLoop lt li hints cells (List.range cells.length)).2

/-! ## Field (`src/solver/src/nonogram/field.rs`): a row-major grid with a
column-major mirror kept in sync by `set`. -/

/-- Mirror of `struct Field { rows: Vec<Vec<CellValue>>, cols: Vec<Vec<CellValue>> }`. -/
structure Field where
  rows : List (List CellValue)
  cols : List (List CellValue)
deriving DecidableEq, Repr

/-- Mirror of `Field::new`: all cells `Unknown`. -/
def Field.new (nrows ncols : Nat) : Field :=
  ⟨List.replicate nrows (List.replicate ncols CellValue.Unknown),
    List.replicate ncols (List.replicate nrows CellValue.Unknown)⟩

/-- Mirror of `Field::row`. -/
def Field.row (f : Field) (idx : Nat) : List CellValue := f.rows.getD idx []

/-- Mirror of `Field::col`. -/
def Field.col (f : Field) (idx : Nat) : List CellValue := f.cols.getD idx []

/-- Mirror of `Field::get`. -/
def Field.get (f : Field) (coords : Nat × Nat) : CellValue :=
  (f.rows.getD coords.1 []).getD coords.2 CellValue.Unknown

/-- Mirror of `Field::set`: writes both the row-major cell and its
column-major mirror. -/
def Field.set (f : Field) (coords : Nat × Nat) (v : CellValue) : Field :=
  ⟨f.rows.set coords.1 ((f.rows.getD coords.1 []).set coords.2 v),
    f.cols.set coords.2 ((f.cols.getD coords.2 []).set coords.1 v)⟩

/-- Mirror of `Field::is_solved`: no cell is `Unknown`. -/
def Field.isSolved (f : Field) : Bool :=
  f.rows.all (fun row => row.all (fun x => x ≠ CellValue.Unknown))

/-- Mirror of `Assumption::apply`. -/
def Assumption.apply (a : Assumption) (f : Field) : Field := f.set a.coords a.val

/-- Mirror of `Assumption::unapply`. -/
def Assumption.unapply (a : Assumption) (f : Field) : Field :=
  f.set a.coords CellValue.Unknown

/-! ## The line cache (`line.rs:14-16, 84-86, 124-160`).

`LineCache` maps the packed cells — two bits per cell, four cells per
byte, and nothing else — to the memoised line solution.  The `HashMap`
behind the shared `RefCell` is modelled as an association list threaded
through every call. -/

/-- Mirror of `cells.chunks(4)`. -/
def chunks4 : List CellValue → List (List CellValue)
  | b1 :: b2 :: b3 :: b4 :: rest => [b1, b2, b3, b4] :: chunks4 rest
  | [] => []
  | rest => [rest]

/-- Mirror of the byte-packing match in `line_cache_key`. The wildcard arm
panics in Rust (impossible: chunks have one to four cells); it is modelled
as 0. -/
def packChunk : List CellValue → Nat
  | [b1, b2, b3, b4] => b1.toNat <<< 6 ||| b2.toNat <<< 4 ||| b3.toNat <<< 2 ||| b4.toNat
  | [b1, b2, b3] => b1.toNat <<< 4 ||| b2.toNat <<< 2 ||| b3.toNat
  | [b1, b2] => b1.toNat <<< 2 ||| b2.toNat
  | [b1] => b1.toNat
  | _ => 0

/-- Mirror of `line_cache_key` (`line.rs:145-160`): the key holds the
packed cells only — no hints and no line identity. -/
def lineCacheKey (cells : List CellValue) : List Nat :=
  (chunks4 cells).map packChunk

/-- Model of `LineCache`: association list from packed cells to the cached
line solution. -/
def LineCache : Type := List (List Nat × Option (List Assumption))

/-- Lookup in the cache (`cache.read().unwrap().get(&cache_key)`). -/
def cacheGet (cache : LineCache) (key : List Nat) : Option (Option (List Assumption)) :=
  (cache.find? (fun kv => kv.1 == key)).map (fun kv => kv.2)

/-- Mirror of `Line::solve`: on a hit return the cached result — whatever
line it was computed for; on a miss run `do_solve` and insert under the
packed-cells key. -/
def lineSolveC (lt : LineType) (li : Nat) (hints : List Nat)
    (cells : List CellValue) (cache : LineCache) :
    Option (List Assumption) × LineCache :=
  let key := lineCacheKey cells
  match cacheGet cache key with
  | some r => (r, cache)
  | none =>
    let r := lineDoSolve lt li hints cells
    (r, (key, r) :: cache)

/-! ## Solver and results (`src/solver/src/nonogram.rs`) -/

/-- Mirror of `enum SolutionResult`; the `MultiSolution` hash set becomes a
duplicate-free list. -/
inductive SolutionResult where
  | Controversial
  | Unsolved (changes : List Assumption)
  | Solved (sols : List Field)
deriving DecidableEq, Repr

/-- Mirror of `struct Solver` (the interiorly-mutable `line_cache` is
threaded explicitly instead). -/
structure Solver where
  rowHints : List (List Nat)
  colHints : List (List Nat)
  maxDepth : Option Nat
  findAll : Bool

def Solver.nrows (s : Solver) : Nat := s.rowHints.length

def Solver.ncols (s : Solver) : Nat := s.colHints.length

/-- Mirror of `Solver::create_field`. -/
def Solver.createField (s : Solver) : Field := Field.new s.nrows s.ncols

/-- Mirror of `Solver::max_depth_reached`:
`self.max_depth.map(|d| depth > d).unwrap_or(false)`. -/
def Solver.maxDepthReached (s : Solver) (depth : Nat) : Bool :=
  (s.maxDepth.map (fun d => decide (depth > d))).getD false

/-- Mirror of `main.rs:31`: the CLI argument
`if cli.max_depth > 0 { Some(cli.max_depth) } else { None }`. -/
def cliMaxDepth (m : Nat) : Option Nat :=
  if m > 0 then some m else none

/-- Mirror of the free function `apply_changes` (field part; the caller
appends `changes` to its accumulated list). -/
def applyChanges (changes : List Assumption) (f : Field) : Field :=
  changes.foldl (fun fld a => a.apply fld) f

/-- Hints of the given line (`Solver::row_line` / `Solver::col_line`). -/
def Solver.lineHints (s : Solver) (lt : LineType) (i : Nat) : List Nat :=
  match lt with
  | .Row => s.rowHints.getD i []
  | .Col => s.colHints.getD i []

/-- Cells of the given line. -/
def lineCells (f : Field) (lt : LineType) (i : Nat) : List CellValue :=
  match lt with
  | .Row => f.row i
  | .Col => f.col i

/-- Ascending duplicate-free insertion; models `HashSet<usize>::insert`
(iteration order of the Rust set is unspecified, the model iterates
ascending). -/
def insertSorted (i : Nat) : List Nat → List Nat
  | [] => [i]
  | j :: rest =>
    if i < j then i :: j :: rest
    else if i = j then j :: rest
    else j :: insertSorted i rest

/-- Outcome of one pass of `do_solve_by_lines` over a set of lines.  The
cache is part of the outcome in both cases: insertions persist even when
the pass aborts with `Controversial`. -/
inductive PassResult where
  | contra (c : LineCache)
  | ok (f : Field) (c : LineCache) (acc : List Assumption) (others : List Nat)

/-- One pass of `do_solve_by_lines` (`nonogram.rs:89-98,103-116,124-137`):
solve every listed line, apply non-empty change lists to the field, extend
the accumulated changes, and record the crossing-line indices of every
change (`ass.coords.0` for a column pass, `ass.coords.1` for a row pass). -/
def passLines (s : Solver) (lt : LineType) :
    List Nat → Field → LineCache → List Assumption → List Nat → PassResult
  | [], f, c, acc, others => .ok f c acc others
  | i :: rest, f, c, acc, others =>
    match lineSolveC lt i (s.lineHints lt i) (lineCells f lt i) c with
    | (none, c1) => .contra c1
    | (some changes, c1) =>
      if changes.isEmpty then passLines s lt rest f c1 acc others
      else
        let f1 := applyChanges changes f
        let others1 := changes.foldl
          (fun o a => insertSorted (match lt with | .Col => a.coords.1 | .Row => a.coords.2) o)
          others
        passLines s lt rest f1 c1 (acc ++ changes) others1

/-- Loop of `do_solve_by_lines` (`nonogram.rs:102-144`): alternate column
and row passes over the dirty index sets until a pass yields no
crossing-line changes, checking `is_solved` after each pass.  `fuel`
bounds the number of loop iterations (the Rust loop has no structural
bound); `none` means the bound was hit. -/
def harnessLoop (s : Solver) (f : Field) (c : LineCache) (acc : List Assumption)
    (changedCols : List Nat) : Nat → Option (SolutionResult × LineCache)
  | 0 => none
  | fuel + 1 =>
    match passLines s .Col changedCols f c acc [] with
    | .contra c1 => some (.Controversial, c1)
    | .ok f1 c1 acc1 changedRows =>
      if f1.isSolved then some (.Solved [f1], c1)
      else if changedRows.isEmpty then some (.Unsolved acc1, c1)
      else
        match passLines s .Row changedRows f1 c1 acc1 [] with
        | .contra c2 => some (.Controversial, c2)
        | .ok f2 c2 acc2 changedCols2 =>
          if f2.isSolved then some (.Solved [f2], c2)
          else if changedCols2.isEmpty then some (.Unsolved acc2, c2)
          else harnessLoop s f2 c2 acc2 changedCols2 fuel

/-- Mirror of `Solver::do_solve_by_lines` (`nonogram.rs:86-145`): an
initial pass over every row (its crossing-column records are not kept in
the source and are dropped here), then the loop starting with every column
dirty. -/
def doSolveByLines (s : Solver) (f : Field) (c : LineCache) (fuel : Nat) :
    Option (SolutionResult × LineCache) :=
  match passLines s .Row (List.range s.nrows) f c [] [] with
  | .contra c1 => some (.Controversial, c1)
  | .ok f1 c1 acc1 _ => harnessLoop s f1 c1 acc1 (List.range s.ncols) fuel

/-- Mirror of `Solver::solve_by_lines` with a fresh cache, as the public
entry point starts with the cache of a newly constructed solver. -/
def solveByLines (s : Solver) (fuel : Nat) : Option (SolutionResult × LineCache) :=
  doSolveByLines s s.createField [] fuel

/-! ## Recursive search (`Solver::do_solve`, `nonogram.rs:160-228`).

The `for coords in self.iter_coords()` sweep with its inner
`for val in KNOWN` loop is modelled by `sweepCells`/`tryCellValue`; the
recursive `do_solve` call is passed in as `recur` and the nested
`do_solve_by_lines` as `harness`, both closed over one unit less fuel. -/

/-- Mirror of `Solver::iter_coords`: row-major coordinate order. -/
def iterCoords (s : Solver) : List (Nat × Nat) :=
  (List.range s.nrows).flatMap (fun r => (List.range s.ncols).map (fun c => (r, c)))

/-- Model of `HashSet<Field>::extend`: append unseen fields. -/
def extendDedup (xs ys : List Field) : List Field :=
  ys.foldl (fun a y => if a.contains y then a else a ++ [y]) xs

/-- Outcome of one trial value at one cell in the `do_solve` sweep. -/
inductive TryOut where
  | earlyRes (r : SolutionResult)
  | cont (f : Field) (sols : List Field) (hasUnsolved : Bool)
      (allChanges : List Assumption) (hasControversy : Bool)

/-- Outcome of the whole `do_solve` sweep. -/
inductive SweepOut where
  | earlyRes (r : SolutionResult)
  | done (f : Field) (sols : List Field) (hasUnsolved : Bool)
      (allChanges : List Assumption)

/-- One iteration of the inner `for val in KNOWN` loop of `do_solve`
(`nonogram.rs:179-212`): apply the assumption, recurse, and dispatch on
the result; on a contradiction force the inverted value and re-run the
harness.  `none` propagates fuel exhaustion from the callbacks. -/
def tryCellValue (s : Solver)
    (recur : Field → Nat → LineCache → Option (SolutionResult × LineCache))
    (harness : Field → LineCache → Option (SolutionResult × LineCache))
    (coords : Nat × Nat) (val : CellValue) (f : Field) (depth : Nat)
    (c : LineCache) (sols : List Field) (hasUnsolved : Bool)
    (allChanges : List Assumption) (hasControversy : Bool) :
    Option (TryOut × LineCache) :=
  let ass : Assumption := ⟨coords, val⟩
  let fA := ass.apply f
  match recur fA (depth + 1) c with
  | none => none
  | some (.Solved res, c1) =>
    let sols2 := extendDedup sols res
    if !s.findAll then some (.earlyRes (.Solved sols2), c1)
    else some (.cont (ass.unapply fA) sols2 hasUnsolved allChanges hasControversy, c1)
  | some (.Unsolved _, c1) =>
    some (.cont (ass.unapply fA) sols true allChanges hasControversy, c1)
  | some (.Controversial, c1) =>
    if hasControversy then some (.earlyRes .Controversial, c1)
    else
      let fI := ass.invert.apply fA
      match harness fI c1 with
      | none => none
      | some (.Controversial, c2) => some (.earlyRes .Controversial, c2)
      | some (.Unsolved ch, c2) =>
        some (.cont (applyChanges ch fI) sols hasUnsolved (allChanges ++ ch) true, c2)
      | some (.Solved res, c2) =>
        let sols2 := extendDedup sols res
        if !s.findAll then some (.earlyRes (.Solved sols2), c2)
        else some (.cont fI sols2 hasUnsolved allChanges true, c2)

/-- The cell sweep of `do_solve` (`nonogram.rs:174-213`): skip known
cells; at each unknown cell try `Filled` then `Empty` (the two elements of
`KNOWN`, unrolled), with `has_controversy` reset per cell. -/
def sweepCells (s : Solver)
    (recur : Field → Nat → LineCache → Option (SolutionResult × LineCache))
    (harness : Field → LineCache → Option (SolutionResult × LineCache))
    (depth : Nat) :
    List (Nat × Nat) → Field → LineCache → List Field → Bool →
      List Assumption → Option (SweepOut × LineCache)
  | [], f, c, sols, hasU, allCh => some (.done f sols hasU allCh, c)
  | coords :: rest, f, c, sols, hasU, allCh =>
    if f.get coords ≠ CellValue.Unknown then
      sweepCells s recur harness depth rest f c sols hasU allCh
    else
      match tryCellValue s recur harness coords CellValue.Filled f depth c sols hasU allCh false with
      | none => none
      | some (.earlyRes r, c1) => some (.earlyRes r, c1)
      | some (.cont f1 sols1 hasU1 allCh1 hasCv1, c1) =>
        match tryCellValue s recur harness coords CellValue.Empty f1 depth c1 sols1 hasU1 allCh1 hasCv1 with
        | none => none
        | some (.earlyRes r, c2) => some (.earlyRes r, c2)
        | some (.cont f2 sols2 hasU2 allCh2 _, c2) =>
          sweepCells s recur harness depth rest f2 c2 sols2 hasU2 allCh2

/-- Mirror of `Solver::do_solve` (`nonogram.rs:160-228`).  The
`max_depth_reached` guard is checked before anything else, as in the
source; `fuel` bounds the recursion (the Rust recursion is unbounded when
`max_depth` is `None`), and `none` means the bound was hit.  The final
`assert_eq!(solutions, res)` debug check is not modelled. -/
def doSolve (s : Solver) : Nat → Field → Nat → LineCache →
    Option (SolutionResult × LineCache)
  | 0, _, depth, c =>
    if s.maxDepthReached depth then some (.Unsolved [], c) else none
  | fuel + 1, f, depth, c =>
    if s.maxDepthReached depth then some (.Unsolved [], c)
    else
      match doSolveByLines s f c fuel with
      | none => none
      | some (.Controversial, c1) => some (.Controversial, c1)
      | some (.Solved xs, c1) => some (.Solved xs, c1)
      | some (.Unsolved changes, c1) =>
        let f1 := applyChanges changes f
        match sweepCells s (fun fld d cc => doSolve s fuel fld d cc)
            (fun fld cc => doSolveByLines s fld cc fuel) depth
            (iterCoords s) f1 c1 [] false changes with
        | none => none
        | some (.earlyRes r, c2) => some (r, c2)
        | some (.done f2 sols hasU allCh, c2) =>
          if !sols.isEmpty && !(hasU && s.findAll) then some (.Solved sols, c2)
          else
            match doSolveByLines s f2 c2 fuel with
            | none => none
            | some (.Solved res, c3) => some (.Solved res, c3)
            | some (.Unsolved ch, c3) => some (.Unsolved (allCh ++ ch), c3)
            | some (.Controversial, c3) => some (.Controversial, c3)

/-- Mirror of `Solver::solve`: `do_solve` on a fresh field at depth 0 with
the fresh cache of a newly constructed solver. -/
def solve (s : Solver) (fuel : Nat) : Option (SolutionResult × LineCache) :=
  doSolve s fuel s.createField 0 []

/-! ## Reachability graph (`src/solver/src/nonogram/reachability_graph.rs`).

Nodes are interned in first-mention order (the `rev_nodes` hash map
becomes a positional lookup); the per-node `HashSet<usize>` in/out sets
become duplicate-free lists in insertion order. -/

/-- Mirror of `struct ReachabilityGraph<T>`.  `reachability_in[a]`
contains `b` when `a` is reachable from `b`; `reachability_out[b]`
contains `a` when `a` is reachable from `b`. -/
structure RGraph (T : Type) where
  nodes : List T
  reachIn : List (List Nat)
  reachOut : List (List Nat)

/-- Mirror of `ReachabilityGraph::new`. -/
def RGraph.new {T : Type} : RGraph T := ⟨[], [], []⟩

/-- Lookup of `rev_nodes[node]`: position of the node in interning order. -/
def RGraph.lookupIdx {T : Type} [DecidableEq T] (g : RGraph T) (a : T) : Option Nat :=
  g.nodes.findIdx? (fun x => x = a)

/-- Model of `HashSet<usize>::insert`: append when absent (the Rust set
iterates in unspecified order; the model iterates in insertion order). -/
def insertNat (i : Nat) (l : List Nat) : List Nat :=
  if l.contains i then l else l ++ [i]

/-- Update the set at one index of an in/out table. -/
def setAt {α : Type} (ls : List (List α)) (i : Nat) (upd : List α → List α) :
    List (List α) :=
  ls.set i (upd (ls.getD i []))

/-- Mirror of `ReachabilityGraph::add_node`: intern a new node, reachable
from and to itself. -/
def RGraph.addNode {T : Type} (g : RGraph T) (a : T) : RGraph T :=
  let n := g.nodes.length
  ⟨g.nodes ++ [a], g.reachIn ++ [[n]], g.reachOut ++ [[n]]⟩

/-- Mirror of `ReachabilityGraph::get_node_idx_or_add`. -/
def RGraph.getOrAdd {T : Type} [DecidableEq T] (g : RGraph T) (a : T) : Nat × RGraph T :=
  match g.lookupIdx a with
  | some i => (i, g)
  | none => (g.nodes.length, g.addNode a)

/-- Body of the inner loop of `set_reachable`:
`reachability_in[dst].insert(src); reachability_out[src].insert(dst)`. -/
def insertPair {T : Type} (src dst : Nat) (g : RGraph T) : RGraph T :=
  ⟨g.nodes, setAt g.reachIn dst (insertNat src),
    setAt g.reachOut src (insertNat dst)⟩

/-- Inner loop of `set_reachable`: one source against every destination. -/
def insertCross {T : Type} (src : Nat) (nodesTo : List Nat) (g : RGraph T) : RGraph T :=
  nodesTo.foldl (fun gg dst => insertPair src dst gg) g

/-- Both loops of `set_reachable`: every source against every destination. -/
def crossAll {T : Type} (nodesFrom nodesTo : List Nat) (g : RGraph T) : RGraph T :=
  nodesFrom.foldl (fun gg src => insertCross src nodesTo gg) g

/-- Mirror of `ReachabilityGraph::set_reachable`: intern both nodes, then
add every `(src, dst)` of `in[a] × out[b]` to both tables (the snapshots
of `in[a]` and `out[b]` are taken before any insertion, as in the source). -/
def RGraph.setReachable {T : Type} [DecidableEq T] (g : RGraph T) (a b : T) : RGraph T :=
  let (ia, g1) := g.getOrAdd a
  let (ib, g2) := g1.getOrAdd b
  let nodesFrom := g2.reachIn.getD ia []
  let nodesTo := g2.reachOut.getD ib []
  crossAll nodesFrom nodesTo g2

/-- Mirror of `ReachabilityGraph::is_reachable`: `false` when either node
was never interned. -/
def RGraph.isReachable {T : Type} [DecidableEq T] (g : RGraph T) (a b : T) : Bool :=
  match g.lookupIdx a with
  | none => false
  | some ia =>
    match g.lookupIdx b with
    | none => false
    | some ib => (g.reachOut.getD ia []).contains ib

/-- Mirror of `ReachabilityGraph::get_reachable`.  The source indexes
`self.nodes[out_idx]`, which cannot fail because interned sets only hold
valid indices; the model drops any out-of-range index. -/
def RGraph.getReachable {T : Type} [DecidableEq T] (g : RGraph T) (a : T) : Option (List T) :=
  (g.lookupIdx a).map
    (fun ia => (g.reachOut.getD ia []).filterMap (fun i => g.nodes.get? i))

/-- Mirror of `ReachabilityGraph::strongly_connected_components`: walk the
nodes in interning order, skipping visited ones; the component of `a` is
its reachable set restricted to nodes that reach it back. -/
def sccStep {T : Type} [DecidableEq T] (g : RGraph T)
    (acc : List (List T) × List T) (a : T) : List (List T) × List T :=
  let (result, visited) := acc
  if visited.contains a then acc
  else
    match g.getReachable a with
    | none => acc
    | some reach =>
      let scc := reach.filter (fun b => g.isReachable b a)
      (result ++ [scc], visited ++ scc)

def RGraph.sccs {T : Type} [DecidableEq T] (g : RGraph T) : List (List T) :=
  (g.nodes.foldl (sccStep g) ([], [])).1

/-! ## Impossibility detection (`src/solver/src/nonogram/assumption.rs:34-52`) -/

/-- Lexicographic comparison of coordinates, the `Ord` of `(usize, usize)`
used by `sort_unstable_by_key(|a| a.coords)`. -/
def coordsLe (a b : Nat × Nat) : Bool :=
  a.1 < b.1 || (a.1 == b.1 && a.2 ≤ b.2)

/-- The sort order as a relation on assumptions. -/
def assumpKeyLe (x y : Assumption) : Prop := coordsLe x.coords y.coords = true

instance : DecidableRel assumpKeyLe := fun x y =>
  inferInstanceAs (Decidable (coordsLe x.coords y.coords = true))

instance : IsTotal Assumption assumpKeyLe :=
  ⟨by
    intro a b
    simp only [assumpKeyLe, coordsLe, Bool.or_eq_true, Bool.and_eq_true,
      decide_eq_true_eq, beq_iff_eq]
    omega⟩

instance : IsTrans Assumption assumpKeyLe :=
  ⟨by
    intro a b c h1 h2
    simp only [assumpKeyLe, coordsLe, Bool.or_eq_true, Bool.and_eq_true,
      decide_eq_true_eq, beq_iff_eq] at h1 h2 ⊢
    omega⟩

/-- Sorting of a reachable set by coordinates; any comparison sort agrees
on the multiset, which is all the adjacent-duplicate scan below observes. -/
def sortByCoords (l : List Assumption) : List Assumption :=
  l.insertionSort assumpKeyLe

/-- Mirror of the `tuple_windows` scan of `is_impossible`: two adjacent
entries with the same coordinates. -/
def hasAdjDup : List Assumption → Bool
  | a :: b :: rest => (a.coords == b.coords) || hasAdjDup (b :: rest)
  | _ => false

/-- Mirror of `ReachabilityGraph::<Assumption>::is_impossible`.  The
source unwraps `get_reachable` (panicking on a non-interned node); every
call site passes an interned node, and the model returns `false` there. -/
def isImpossibleA (g : RGraph Assumption) (node : Assumption) : Bool :=
  match g.getReachable node with
  | none => false
  | some reachable => hasAdjDup (sortByCoords reachable)

/-- Mirror of `get_impossible`: members of the components whose
representative (`scc[0]`; components are nonempty, see the invariants
below) is impossible. -/
def getImpossible (g : RGraph Assumption) : List Assumption :=
  (g.sccs.filter
    (fun scc =>
      match scc with
      | a :: _ => isImpossibleA g a
      | [] => false)).flatten

/-! ## 2-SAT-style search (`Solver::do_2sat_step`, `do_solve_2sat`,
`apply_impossible_matches`, `nonogram.rs:230-352`) -/

/-- Mirror of `Solver::iter_assumptions`. -/
def iterAssumptions (s : Solver) : List Assumption :=
  (iterCoords s).flatMap (fun coords => KNOWN.map (fun val => ⟨coords, val⟩))

/-- Loop of `apply_impossible_matches` over the impossible assumptions:
force the inverse on unknown cells, abort with `none` (Controversial) when
the cell already holds the impossible value. -/
def impossibleLoop (f : Field) : List Assumption → Option (Field × List Assumption)
  | [] => some (f, [])
  | ass :: rest =>
    let oldVal := f.get ass.coords
    if oldVal = CellValue.Unknown then
      let inv := ass.invert
      match impossibleLoop (inv.apply f) rest with
      | none => none
      | some (f2, chs) => some (f2, inv :: chs)
    else if oldVal = ass.val then none
    else impossibleLoop f rest

/-- Mirror of `Solver::apply_impossible_matches` (`nonogram.rs:230-254`). -/
def applyImpossibleMatches (s : Solver) (f : Field) (reach : RGraph Assumption)
    (c : LineCache) (fuel : Nat) : Option (SolutionResult × LineCache) :=
  match impossibleLoop f (getImpossible reach) with
  | none => some (.Controversial, c)
  | some (f1, allChanges) =>
    if allChanges.isEmpty then some (.Unsolved allChanges, c)
    else
      match doSolveByLines s f1 c fuel with
      | none => none
      | some (.Unsolved ch, c1) => some (.Unsolved (allChanges ++ ch), c1)
      | some (other, c1) => some (other, c1)

/-- Outcome of the pair loops in `do_2sat_step`. -/
inductive StepLoopOut where
  | earlySolved (sols : List Field) (c : LineCache)
  | cont (f : Field) (g : RGraph Assumption) (c : LineCache)
      (sols : List Field) (hasU : Bool)

/-- Inner pair loop of `do_2sat_step` (`nonogram.rs:271-293`): skip unless
`ass2.coords < ass1.coords`, the cell is unknown and the implication is
not already recorded; otherwise apply `ass2`, recurse, and on
contradiction record both implication edges. -/
def step2Inner (s : Solver)
    (recurse : Field → Nat → LineCache → Option (SolutionResult × LineCache))
    (depth : Nat) (ass1 : Assumption) :
    List Assumption → Field → RGraph Assumption → LineCache → List Field →
      Bool → Option StepLoopOut
  | [], f, g, c, sols, hasU => some (.cont f g c sols hasU)
  | ass2 :: rest, f, g, c, sols, hasU =>
    if coordsLe ass1.coords ass2.coords || f.get ass2.coords ≠ CellValue.Unknown
        || g.isReachable ass1 ass2.invert then
      step2Inner s recurse depth ass1 rest f g c sols hasU
    else
      let fA := ass2.apply f
      match recurse fA (depth + 1) c with
      | none => none
      | some (.Unsolved _, c1) =>
        step2Inner s recurse depth ass1 rest (ass2.unapply fA) g c1 sols true
      | some (.Solved res, c1) =>
        let sols2 := extendDedup sols res
        if !s.findAll then some (.earlySolved sols2 c1)
        else step2Inner s recurse depth ass1 rest (ass2.unapply fA) g c1 sols2 hasU
      | some (.Controversial, c1) =>
        let g1 := (g.setReachable ass1 ass2.invert).setReachable ass2 ass1.invert
        step2Inner s recurse depth ass1 rest (ass2.unapply fA) g1 c1 sols hasU

/-- Outer pair loop of `do_2sat_step` (`nonogram.rs:266-295`). -/
def step2Outer (s : Solver)
    (recurse : Field → Nat → LineCache → Option (SolutionResult × LineCache))
    (depth : Nat) :
    List Assumption → Field → RGraph Assumption → LineCache → List Field →
      Bool → Option StepLoopOut
  | [], f, g, c, sols, hasU => some (.cont f g c sols hasU)
  | ass1 :: rest, f, g, c, sols, hasU =>
    if f.get ass1.coords ≠ CellValue.Unknown then
      step2Outer s recurse depth rest f g c sols hasU
    else
      let fA := ass1.apply f
      match step2Inner s recurse depth ass1 (iterAssumptions s) fA g c sols hasU with
      | none => none
      | some (.earlySolved sols2 c1) => some (.earlySolved sols2 c1)
      | some (.cont f1 g1 c1 sols1 hasU1) =>
        step2Outer s recurse depth rest (ass1.unapply f1) g1 c1 sols1 hasU1

/-- Mirror of `Solver::do_2sat_step` (`nonogram.rs:256-302`). -/
def do2satStep (s : Solver) (f : Field) (depth : Nat)
    (recurse : Field → Nat → LineCache → Option (SolutionResult × LineCache))
    (c : LineCache) (fuel : Nat) : Option (SolutionResult × LineCache) :=
  match step2Outer s recurse depth (iterAssumptions s) f RGraph.new c [] false with
  | none => none
  | some (.earlySolved sols c1) => some (.Solved sols, c1)
  | some (.cont f1 g c1 sols hasU) =>
    if decide (sols.length > 0) && !hasU then some (.Solved sols, c1)
    else applyImpossibleMatches s f1 g c1 fuel

/-- One of the two `loop`s of `do_solve_2sat` (`nonogram.rs:321-350`):
repeat the 2-SAT step until it solves, contradicts, or reports no
changes.  `inl` carries an early result, `inr` the final field and the
accumulated changes. -/
def sat2Loop (s : Solver) (depth : Nat)
    (recurse : Field → Nat → LineCache → Option (SolutionResult × LineCache)) :
    Nat → Field → LineCache → List Assumption →
      Option ((SolutionResult ⊕ (Field × List Assumption)) × LineCache)
  | 0, _, _, _ => none
  | fuel + 1, f, c, allCh =>
    match do2satStep s f depth recurse c fuel with
    | none => none
    | some (.Solved xs, c1) => some (.inl (.Solved xs), c1)
    | some (.Controversial, c1) => some (.inl .Controversial, c1)
    | some (.Unsolved ch, c1) =>
      if ch.isEmpty then some (.inr (f, allCh), c1)
      else sat2Loop s depth recurse fuel (applyChanges ch f) c1 (allCh ++ ch)

/-- Mirror of `Solver::do_solve_2sat` (`nonogram.rs:304-352`): harness,
then the step loop with harness refinement, then the step loop with
recursive 2-SAT refinement (whose closure adds a further 1 to the depth it
is called at, as in the source).  The `println!` progress output at depth
0 is not modelled. -/
def doSolve2sat (s : Solver) : Nat → Field → Nat → LineCache →
    Option (SolutionResult × LineCache)
  | 0, _, _, _ => none
  | fuel + 1, f, depth, c =>
    match doSolveByLines s f c fuel with
    | none => none
    | some (.Controversial, c1) => some (.Controversial, c1)
    | some (.Solved xs, c1) => some (.Solved xs, c1)
    | some (.Unsolved changes, c1) =>
      if s.maxDepthReached depth then some (.Unsolved changes, c1)
      else
        match sat2Loop s depth (fun fld _ cc => doSolveByLines s fld cc fuel) fuel
            (applyChanges changes f) c1 changes with
        | none => none
        | some (.inl r, c2) => some (r, c2)
        | some (.inr (f2, allCh2), c2) =>
          match sat2Loop s depth (fun fld d cc => doSolve2sat s fuel fld (d + 1) cc) fuel
              f2 c2 allCh2 with
          | none => none
          | some (.inl r, c3) => some (r, c3)
          | some (.inr (_, allCh3), c3) => some (.Unsolved allCh3, c3)

/-- Mirror of `Solver::solve_2sat`. -/
def solve2sat (s : Solver) (fuel : Nat) : Option (SolutionResult × LineCache) :=
  doSolve2sat s fuel s.createField 0 []

/-! ## Specification-side notions used by the claims -/

/-- Index of an assumption within a line: the inverse of `lineCoords` on
the non-line coordinate. -/
def Assumption.cellIdx (a : Assumption) : LineType → Nat
  | .Row => a.coords.2
  | .Col => a.coords.1

/-- Application of a list of line assumptions to the cell buffer of that
line. -/
def applyToLine (lt : LineType) (cells : List CellValue) (asms : List Assumption) :
    List CellValue :=
  asms.foldl (fun cs a => cs.set (a.cellIdx lt) a.val) cells

/-- A reachability graph built by a sequence of `set_reachable` calls on a
fresh graph — the graphs reachable through the public interface. -/
def buildGraph {T : Type} [DecidableEq T] (ps : List (T × T)) : RGraph T :=
  ps.foldl (fun g p => g.setReachable p.1 p.2) RGraph.new

/-- Ground-truth satisfaction of the puzzle hints by a grid: every row and
every column realises exactly its hinted runs. -/
def Solver.hintsSatisfied (s : Solver) (f : Field) : Prop :=
  (∀ r, r < s.nrows → runsOf (f.row r) = s.rowHints.getD r []) ∧
  (∀ c, c < s.ncols → runsOf (f.col c) = s.colHints.getD c [])

/-! ## Concrete instances for the refutations -/

/-- The spec scenario-D puzzle: one row hinted `[2]`, three columns each
hinted `[1]` — unsatisfiable (the row forces two filled cells, the columns
allow at most one each). -/
def controversialSolver (md : Option Nat) : Solver :=
  ⟨[[2]], [[1], [1], [1]], md, false⟩

/-- The grid `solve` actually returns on that puzzle: all three cells
filled. -/
def badField232 : Field :=
  ⟨[[.Filled, .Filled, .Filled]], [[.Filled], [.Filled], [.Filled]]⟩

/-- The change list `solve_by_lines` and `solve_2sat` return on that
puzzle.  Only `(0,1) ↦ Filled` is a genuine deduction; the three copies of
`(0,0) ↦ Filled` come from stale cache hits (key collisions between the
one-cell column `[Unknown]` and the row `[Filled, Filled, Unknown]`, both
packing to the byte 2). -/
def staleChanges4 : List Assumption :=
  [⟨(0, 1), .Filled⟩, ⟨(0, 0), .Filled⟩, ⟨(0, 0), .Filled⟩, ⟨(0, 0), .Filled⟩]

/-- The change list `solve` with `max_depth = Some 0` returns on that
puzzle: the harness changes plus three more stale-hit copies appended by
the final harness re-run. -/
def staleChanges7 : List Assumption :=
  staleChanges4 ++ [⟨(0, 0), .Filled⟩, ⟨(0, 0), .Filled⟩, ⟨(0, 0), .Filled⟩]

/-- The ambiguous 2×2 puzzle (spec scenario B) with `max_depth` absent and
`find_all = false`. -/
def ambiguousSolver : Solver := ⟨[[1], [1]], [[1], [1]], none, false⟩

/-- The first solution the search returns on the ambiguous puzzle. -/
def ambiguousFirstSolution : Field :=
  ⟨[[.Filled, .Empty], [.Empty, .Filled]],
    [[.Filled, .Empty], [.Empty, .Filled]]⟩

/-! # Theorems -/

/-! ## Run-length lemmas -/

theorem runsAcc_nonfilled {x : CellValue} (hx : x ≠ CellValue.Filled)
    (l : List CellValue) : runsAcc (x :: l) 0 = runsAcc l 0 := by
  cases x <;> simp_all [runsAcc]

theorem runsAcc_nonfilled_succ {x : CellValue} (hx : x ≠ CellValue.Filled)
    (l : List CellValue) (n : Nat) :
    runsAcc (x :: l) (n + 1) = (n + 1) :: runsAcc l 0 := by
  cases x <;> simp_all [runsAcc]

theorem runsAcc_filled (l : List CellValue) (n : Nat) :
    runsAcc (CellValue.Filled :: l) n = runsAcc l (n + 1) := by
  simp [runsAcc]

theorem runsAcc_replicate (k : Nat) (l : List CellValue) (n : Nat) :
    runsAcc (List.replicate k CellValue.Filled ++ l) n = runsAcc l (n + k) := by
  induction k generalizing n with
  | zero => simp
  | succ k ih =>
    rw [List.replicate_succ, List.cons_append, runsAcc_filled, ih]
    congr 1
    omega

theorem runsAcc_succ_ne_nil (l : List CellValue) (n : Nat) :
    runsAcc l (n + 1) ≠ [] := by
  induction l generalizing n with
  | nil => simp [runsAcc]
  | cons x rest ih =>
    cases x <;> simp [runsAcc]
    exact ih (n + 1)

theorem runsOf_eq_nil_iff (l : List CellValue) :
    runsOf l = [] ↔ ∀ x ∈ l, x ≠ CellValue.Filled := by
  induction l with
  | nil => simp [runsOf, runsAcc]
  | cons x rest ih =>
    constructor
    · intro h y hy
      by_cases hx : x = CellValue.Filled
      · subst hx
        rw [runsOf, runsAcc_filled] at h
        exact absurd h (runsAcc_succ_ne_nil rest 0)
      · rw [runsOf, runsAcc_nonfilled hx] at h
        rcases List.mem_cons.mp hy with rfl | hy
        · exact hx
        · exact ih.mp h y hy
    · intro h
      have hx : x ≠ CellValue.Filled := h x (by simp)
      rw [runsOf, runsAcc_nonfilled hx]
      exact ih.mpr (fun y hy => h y (by simp [hy]))

theorem runsOf_nonfilled_prefix (pre l : List CellValue)
    (h : ∀ x ∈ pre, x ≠ CellValue.Filled) :
    runsOf (pre ++ l) = runsOf l := by
  induction pre with
  | nil => rfl
  | cons x rest ih =>
    rw [List.cons_append, runsOf, runsAcc_nonfilled (h x (by simp))]
    exact ih (fun y hy => h y (by simp [hy]))

theorem runsOf_run_end (h : Nat) (hpos : 0 < h) :
    runsOf (List.replicate h CellValue.Filled) = [h] := by
  have := runsAcc_replicate h [] 0
  rw [List.append_nil] at this
  rw [runsOf, this]
  cases h with
  | zero => omega
  | succ m => simp [runsAcc]

theorem runsOf_run_boundary (h : Nat) (hpos : 0 < h) {b : CellValue}
    (hb : b ≠ CellValue.Filled) (tail : List CellValue) :
    runsOf (List.replicate h CellValue.Filled ++ b :: tail) = h :: runsOf tail := by
  rw [runsOf, runsAcc_replicate]
  cases h with
  | zero => omega
  | succ m => simpa using runsAcc_nonfilled_succ hb tail m

/-- Decomposition of a run list with a nonzero open accumulator: the first
`h - (n+1)` cells continue the open run, then a non-Filled boundary (or
the end), then the remaining runs. -/
theorem runsAcc_cons_decomp :
    ∀ (l : List CellValue) (n h : Nat) (hs : List Nat),
      runsAcc l (n + 1) = h :: hs →
      n + 1 ≤ h ∧ h - (n + 1) ≤ l.length ∧
      (∀ x ∈ l.take (h - (n + 1)), x = CellValue.Filled) ∧
      (match l.drop (h - (n + 1)) with
        | [] => True
        | b :: _ => b ≠ CellValue.Filled) ∧
      runsOf (l.drop (h - (n + 1) + 1)) = hs
  | [], n, h, hs, heq => by
    simp only [runsAcc] at heq
    obtain ⟨rfl, rfl⟩ : n + 1 = h ∧ ([] : List Nat) = hs := by
      cases heq; exact ⟨rfl, rfl⟩
    refine ⟨le_refl _, by simp, ?_, ?_, ?_⟩ <;> simp [runsOf, runsAcc]
  | .Filled :: rest, n, h, hs, heq => by
    rw [runsAcc_filled] at heq
    obtain ⟨h1, h2, h3, h4, h5⟩ := runsAcc_cons_decomp rest (n + 1) h hs heq
    have hd : h - (n + 1) = (h - (n + 2)) + 1 := by omega
    refine ⟨by omega, by simp; omega, ?_, ?_, ?_⟩
    · rw [hd, List.take_succ_cons]
      intro x hx
      rcases List.mem_cons.mp hx with rfl | hx
      · rfl
      · exact h3 x hx
    · rw [hd, List.drop_succ_cons]
      exact h4
    · rw [hd, List.drop_succ_cons]
      exact h5
  | .Empty :: rest, n, h, hs, heq => by
    rw [runsAcc_nonfilled_succ (by simp) rest n] at heq
    obtain ⟨rfl, rfl⟩ : n + 1 = h ∧ runsAcc rest 0 = hs := by
      cases heq; exact ⟨rfl, rfl⟩
    refine ⟨le_refl _, by simp, by simp, by simp, by simp [runsOf]⟩
  | .Unknown :: rest, n, h, hs, heq => by
    rw [runsAcc_nonfilled_succ (by simp) rest n] at heq
    obtain ⟨rfl, rfl⟩ : n + 1 = h ∧ runsAcc rest 0 = hs := by
      cases heq; exact ⟨rfl, rfl⟩
    refine ⟨le_refl _, by simp, by simp, by simp, by simp [runsOf]⟩

/-- Decomposition of the first run of a completed line: a Filled-free
prefix, the run itself, a boundary, and the remaining runs. -/
theorem runsOf_cons_decomp :
    ∀ (c : List CellValue) (h : Nat) (hs : List Nat),
      runsOf c = h :: hs →
      ∃ s, s + h ≤ c.length ∧
        (∀ x ∈ c.take s, x ≠ CellValue.Filled) ∧
        (∀ x ∈ (c.drop s).take h, x = CellValue.Filled) ∧
        (match (c.drop s).drop h with
          | [] => True
          | b :: _ => b ≠ CellValue.Filled) ∧
        runsOf (c.drop (s + h + 1)) = hs
  | [], h, hs, heq => by simp [runsOf, runsAcc] at heq
  | .Filled :: rest, h, hs, heq => by
    rw [runsOf, runsAcc_filled] at heq
    obtain ⟨h1, h2, h3, h4, h5⟩ := runsAcc_cons_decomp rest 0 h hs heq
    refine ⟨0, by simp; omega, by simp, ?_, ?_, ?_⟩
    · rw [List.drop_zero]
      have hh : h = (h - 1) + 1 := by omega
      rw [hh, List.take_succ_cons]
      intro x hx
      rcases List.mem_cons.mp hx with rfl | hx
      · rfl
      · exact h3 x (by simpa using hx)
    · rw [List.drop_zero]
      have hh : h = (h - 1) + 1 := by omega
      rw [hh, List.drop_succ_cons]
      simpa using h4
    · rw [Nat.zero_add]
      have hh : h + 1 = (h - 1 + 1) + 1 := by omega
      rw [hh, List.drop_succ_cons]
      simpa using h5
  | .Empty :: rest, h, hs, heq => by
    rw [runsOf, runsAcc_nonfilled (by simp) rest] at heq
    obtain ⟨s, h1, h2, h3, h4, h5⟩ := runsOf_cons_decomp rest h hs heq
    refine ⟨s + 1, by simp; omega, ?_, ?_, ?_, ?_⟩
    · rw [List.take_succ_cons]
      intro x hx
      rcases List.mem_cons.mp hx with rfl | hx
      · simp
      · exact h2 x hx
    · rw [List.drop_succ_cons]; exact h3
    · rw [List.drop_succ_cons]; exact h4
    · have : s + 1 + h + 1 = (s + h + 1) + 1 := by omega
      rw [this, List.drop_succ_cons]
      exact h5
  | .Unknown :: rest, h, hs, heq => by
    rw [runsOf, runsAcc_nonfilled (by simp) rest] at heq
    obtain ⟨s, h1, h2, h3, h4, h5⟩ := runsOf_cons_decomp rest h hs heq
    refine ⟨s + 1, by simp; omega, ?_, ?_, ?_, ?_⟩
    · rw [List.take_succ_cons]
      intro x hx
      rcases List.mem_cons.mp hx with rfl | hx
      · simp
      · exact h2 x hx
    · rw [List.drop_succ_cons]; exact h3
    · rw [List.drop_succ_cons]; exact h4
    · have : s + 1 + h + 1 = (s + h + 1) + 1 := by omega
      rw [this, List.drop_succ_cons]
      exact h5

/-! ## Completion lemmas -/

theorem isCompletion_length : ∀ {c cells : List CellValue},
    IsCompletion c cells → c.length = cells.length
  | [], [], _ => rfl
  | y :: c, x :: cells, h => by
    simp only [List.length_cons]
    exact congrArg (· + 1) (isCompletion_length h.2)
  | [], _ :: _, h => absurd h (by simp [IsCompletion])
  | _ :: _, [], h => absurd h (by simp [IsCompletion])

theorem isCompletion_nil_iff (c : List CellValue) :
    IsCompletion c [] ↔ c = [] := by
  cases c <;> simp [IsCompletion]

theorem satisfiable_nil_iff (hints : List Nat) :
    Satisfiable [] hints ↔ hints = [] := by
  constructor
  · rintro ⟨c, hc, hr⟩
    rw [isCompletion_nil_iff] at hc
    subst hc
    exact hr.symm ▸ rfl
  · rintro rfl
    exact ⟨[], by simp [IsCompletion], rfl⟩

/-- The all-Empty-on-Unknown completion always exists. -/
theorem isCompletion_map_toE (cells : List CellValue) :
    IsCompletion
      (cells.map (fun x => if x = CellValue.Unknown then CellValue.Empty else x))
      cells := by
  induction cells with
  | nil => simp [IsCompletion]
  | cons x rest ih =>
    refine ⟨?_, ih⟩
    by_cases hx : x = CellValue.Unknown <;> simp [hx]

theorem isCompletion_cons_iff (y x : CellValue) (c cells : List CellValue) :
    IsCompletion (y :: c) (x :: cells) ↔
      (if x = CellValue.Unknown then y = CellValue.Filled ∨ y = CellValue.Empty
        else y = x) ∧ IsCompletion c cells := Iff.rfl

theorem isCompletion_take_drop (s : Nat) :
    ∀ {c cells : List CellValue}, IsCompletion c cells →
      IsCompletion (c.take s) (cells.take s) ∧ IsCompletion (c.drop s) (cells.drop s) := by
  induction s with
  | zero => intro c cells h; simpa [IsCompletion] using h
  | succ n ih =>
    intro c cells h
    match c, cells, h with
    | [], [], _ => simp [IsCompletion]
    | y :: c', x :: cells', h =>
      obtain ⟨h1, h2⟩ := ih h.2
      exact ⟨⟨h.1, h1⟩, h2⟩

theorem isCompletion_append_intro :
    ∀ {c₁ cells₁ : List CellValue} {c₂ cells₂ : List CellValue},
      IsCompletion c₁ cells₁ → IsCompletion c₂ cells₂ →
      IsCompletion (c₁ ++ c₂) (cells₁ ++ cells₂)
  | [], [], c₂, cells₂, _, h2 => by simpa using h2
  | y :: c', x :: cells', c₂, cells₂, h1, h2 =>
    ⟨h1.1, isCompletion_append_intro h1.2 h2⟩
  | [], _ :: _, _, _, h1, _ => absurd h1 (by simp [IsCompletion])
  | _ :: _, [], _, _, h1, _ => absurd h1 (by simp [IsCompletion])

/-- Transfer a Filled-free completion segment back to the cells. -/
theorem isCompletion_transfer_nonfilled :
    ∀ {c cells : List CellValue}, IsCompletion c cells →
      (∀ y ∈ c, y ≠ CellValue.Filled) → ∀ x ∈ cells, x ≠ CellValue.Filled
  | _, [], _, _ => by simp
  | y :: c', x :: cells', h, hall => by
    intro z hz
    rcases List.mem_cons.mp hz with rfl | hz
    · intro hzf
      subst hzf
      have : y = CellValue.Filled := by simpa using h.1
      exact hall y (by simp) this
    · exact isCompletion_transfer_nonfilled h.2 (fun u hu => hall u (by simp [hu])) z hz
  | [], _ :: _, h, _ => absurd h (by simp [IsCompletion])

theorem satisfiable_nil_hints_iff (cells : List CellValue) :
    Satisfiable cells [] ↔ ∀ x ∈ cells, x ≠ CellValue.Filled := by
  constructor
  · rintro ⟨c, hc, hr⟩
    rw [runsOf_eq_nil_iff] at hr
    exact isCompletion_transfer_nonfilled hc hr
  · intro h
    refine ⟨cells.map (fun x => if x = CellValue.Unknown then CellValue.Empty else x),
      isCompletion_map_toE cells, ?_⟩
    rw [runsOf_eq_nil_iff]
    intro y hy
    rcases List.mem_map.mp hy with ⟨x, hx, rfl⟩
    by_cases hxu : x = CellValue.Unknown <;> simp [hxu]
    exact h x hx

/-- Transfer an all-Filled completion segment back: the cells hold no Empty. -/
theorem isCompletion_transfer_filled :
    ∀ {c cells : List CellValue}, IsCompletion c cells →
      (∀ y ∈ c, y = CellValue.Filled) → ∀ x ∈ cells, x ≠ CellValue.Empty
  | _, [], _, _ => by simp
  | y :: c', x :: cells', h, hall => by
    intro z hz
    rcases List.mem_cons.mp hz with rfl | hz
    · intro hzf
      subst hzf
      have hy : y = CellValue.Filled := hall y (by simp)
      subst hy
      simp [IsCompletion] at h
    · exact isCompletion_transfer_filled h.2 (fun u hu => hall u (by simp [hu])) z hz
  | [], _ :: _, h, _ => absurd h (by simp [IsCompletion])

/-- A completion of an all-non-Empty segment by Filled cells exists. -/
theorem isCompletion_replicate_filled :
    ∀ (seg : List CellValue), (∀ x ∈ seg, x ≠ CellValue.Empty) →
      IsCompletion (List.replicate seg.length CellValue.Filled) seg
  | [], _ => by simp [IsCompletion]
  | x :: rest, h => by
    rw [List.length_cons, List.replicate_succ]
    refine ⟨?_, isCompletion_replicate_filled rest (fun u hu => h u (by simp [hu]))⟩
    have hx := h x (by simp)
    cases x <;> simp_all

/-! ## Decomposition of satisfiability along the first hint -/

theorem satisfiable_cons_head {x : CellValue} (hx : x ≠ CellValue.Filled)
    {rest : List CellValue} {hints : List Nat} :
    Satisfiable rest hints → Satisfiable (x :: rest) hints := by
  rintro ⟨c, hc, hr⟩
  refine ⟨(if x = CellValue.Unknown then CellValue.Empty else x) :: c, ⟨?_, hc⟩, ?_⟩
  · by_cases hxu : x = CellValue.Unknown <;> simp [hxu]
  · rw [runsOf, runsAcc_nonfilled ?hne]
    · exact hr
    case hne =>
      by_cases hxu : x = CellValue.Unknown <;> simp [hxu, hx]

/-- Construction: a run placed at position 0 plus a satisfiable remainder
yields a satisfiable line. -/
theorem satisfiable_of_place (h : Nat) (hpos : 0 < h) (hs : List Nat)
    (cells : List CellValue) (hle : h ≤ cells.length)
    (hspan : ∀ x ∈ cells.take h, x ≠ CellValue.Empty)
    (hbnd : match cells.drop h with
      | [] => True
      | b :: _ => b ≠ CellValue.Filled)
    (hrest : Satisfiable (cells.drop (h + 1)) hs) :
    Satisfiable cells (h :: hs) := by
  have hdropadd : cells.drop (h + 1) = (cells.drop h).drop 1 := by
    rw [List.drop_drop]
  rcases hdrop : cells.drop h with _ | ⟨b, tail⟩
  · have hlen : cells.length ≤ h := by
      have := List.drop_eq_nil_iff.mp hdrop
      omega
    have hEq : h = cells.length := le_antisymm hle hlen
    have htake : cells.take h = cells := List.take_of_length_le hlen
    have hrest2 : cells.drop (h + 1) = [] := by
      rw [hdropadd, hdrop]
      simp
    rw [hrest2, satisfiable_nil_iff] at hrest
    subst hrest
    refine ⟨List.replicate h CellValue.Filled, ?_, runsOf_run_end h hpos⟩
    have := isCompletion_replicate_filled (cells.take h) hspan
    rwa [List.length_take, min_eq_left hle, htake] at this
  · obtain ⟨d, hd, hrd⟩ := hrest
    have htail : cells.drop (h + 1) = tail := by
      rw [hdropadd, hdrop, List.drop_succ_cons, List.drop_zero]
    rw [hdrop] at hbnd
    have hb : b ≠ CellValue.Filled := by simpa using hbnd
    refine ⟨List.replicate h CellValue.Filled ++ CellValue.Empty :: d, ?_, ?_⟩
    · conv_rhs => rw [(List.take_append_drop h cells).symm]
      rw [hdrop]
      have h1 : IsCompletion (List.replicate h CellValue.Filled) (cells.take h) := by
        have := isCompletion_replicate_filled (cells.take h) hspan
        rwa [List.length_take, min_eq_left hle] at this
      refine isCompletion_append_intro h1 ⟨?_, htail ▸ hd⟩
      cases b <;> simp_all
    · rw [runsOf_run_boundary h hpos (by simp) d, hrd]

/-- Satisfiability with a leading hint `h`, characterised by the start
position of the first run. -/
theorem satisfiable_cons_iff (h : Nat) (hpos : 0 < h) (hs : List Nat)
    (cells : List CellValue) :
    Satisfiable cells (h :: hs) ↔
      ∃ s, s + h ≤ cells.length ∧
        (∀ x ∈ cells.take s, x ≠ CellValue.Filled) ∧
        (∀ x ∈ (cells.drop s).take h, x ≠ CellValue.Empty) ∧
        (match (cells.drop s).drop h with
          | [] => True
          | b :: _ => b ≠ CellValue.Filled) ∧
        Satisfiable (cells.drop (s + h + 1)) hs := by
  constructor
  · rintro ⟨c, hc, hr⟩
    obtain ⟨s, h1, h2, h3, h4, h5⟩ := runsOf_cons_decomp c h hs hr
    have hclen := isCompletion_length hc
    refine ⟨s, by omega, ?_, ?_, ?_, ?_⟩
    · exact isCompletion_transfer_nonfilled (isCompletion_take_drop s hc).1 h2
    · have hcd := (isCompletion_take_drop s hc).2
      exact isCompletion_transfer_filled (isCompletion_take_drop h hcd).1 h3
    · have hcd := (isCompletion_take_drop h (isCompletion_take_drop s hc).2).2
      revert h4
      rcases hccase : (c.drop s).drop h with _ | ⟨y, crest⟩ <;>
        rcases hcellcase : (cells.drop s).drop h with _ | ⟨b, brest⟩ <;>
          intro h4
      · trivial
      · rw [hccase, hcellcase] at hcd
        exact absurd hcd (by simp [IsCompletion])
      · trivial
      · rw [hccase, hcellcase] at hcd
        have hy : y ≠ CellValue.Filled := by simpa using h4
        have := hcd.1
        by_cases hbu : b = CellValue.Unknown
        · simp [hbu]
        · simp only [hbu, if_false] at this
          simp only []
          subst this
          exact hy
    · have := (isCompletion_take_drop (s + h + 1) hc).2
      exact ⟨c.drop (s + h + 1), this, h5⟩
  · rintro ⟨s, h1, h2, h3, h4, h5⟩
    induction s generalizing cells with
    | zero =>
      simp only [List.drop_zero] at h3 h4
      simp only [Nat.zero_add] at h1 h5
      exact satisfiable_of_place h hpos hs cells h1 h3 h4 h5
    | succ n ih =>
      cases cells with
      | nil => simp at h1
      | cons x rest =>
        have hxn : x ≠ CellValue.Filled := h2 x (by simp [List.take_succ_cons])
        refine satisfiable_cons_head hxn (ih rest ?_ ?_ ?_ ?_ ?_)
        · simp only [List.length_cons] at h1
          omega
        · intro u hu
          exact h2 u (by simp [List.take_succ_cons, hu])
        · simpa [List.drop_succ_cons] using h3
        · simpa [List.drop_succ_cons] using h4
        · have : n + 1 + h + 1 = (n + h + 1) + 1 := by omega
          rw [this, List.drop_succ_cons] at h5
          exact h5

/-! ## The verifier decides satisfiability -/

theorem placeOk_iff (k : List CellValue → Bool) (h : Nat) (seg : List CellValue) :
    placeOk k h seg = true ↔
      (∀ x ∈ seg.take h, x ≠ CellValue.Empty) ∧
      (match seg.drop h with
        | [] => True
        | b :: _ => b ≠ CellValue.Filled) ∧
      k (seg.drop (h + 1)) = true := by
  rcases hd : seg.drop h with _ | ⟨b, rest⟩ <;>
    simp [placeOk, hd, List.all_eq_true, and_assoc]

theorem tryPlace_iff (k : List CellValue → Bool) (h : Nat) :
    ∀ cells : List CellValue,
      tryPlace k h cells = true ↔
        ∃ s, s + h ≤ cells.length ∧
          (∀ x ∈ cells.take s, x ≠ CellValue.Filled) ∧
          placeOk k h (cells.drop s) = true
  | [] => by
    simp only [tryPlace]
    constructor
    · intro ht
      by_cases h0 : h ≤ 0
      · refine ⟨0, by simp; omega, by simp, ?_⟩
        simp only [h0, if_true] at ht
        simpa using ht
      · simp [h0] at ht
    · rintro ⟨s, hs, hpre, hpl⟩
      simp only [List.length_nil] at hs
      have h0 : h = 0 := by omega
      have hs0 : s = 0 := by omega
      subst h0; subst hs0
      simpa using hpl
  | c :: rest => by
    by_cases hlen : h ≤ rest.length + 1
    · simp only [tryPlace, hlen, if_true, Bool.or_eq_true]
      constructor
      · rintro (hp | hstep)
        · exact ⟨0, by simp; omega, by simp, by simpa using hp⟩
        · by_cases hcf : c = CellValue.Filled
          · simp [hcf] at hstep
          · simp only [hcf, if_false] at hstep
            obtain ⟨s, hs1, hs2, hs3⟩ := (tryPlace_iff k h rest).mp hstep
            refine ⟨s + 1, by simp only [List.length_cons]; omega, ?_, by simpa using hs3⟩
            intro x hx
            rw [List.take_succ_cons] at hx
            rcases List.mem_cons.mp hx with rfl | hx
            · exact hcf
            · exact hs2 x hx
      · rintro ⟨s, hs1, hs2, hs3⟩
        cases s with
        | zero =>
          left
          simpa using hs3
        | succ n =>
          right
          have hcf : c ≠ CellValue.Filled := hs2 c (by simp [List.take_succ_cons])
          simp only [hcf, if_false]
          refine (tryPlace_iff k h rest).mpr ⟨n, ?_, ?_, by simpa using hs3⟩
          · simp only [List.length_cons] at hs1
            omega
          · intro x hx
            exact hs2 x (by simp [List.take_succ_cons, hx])
    · simp only [tryPlace, hlen, if_false]
      constructor
      · simp
      · rintro ⟨s, hs1, _, _⟩
        simp only [List.length_cons] at hs1
        omega

/-- Main equivalence: `do_verify` returns true exactly on satisfiable
lines, for positive hints. -/
theorem doVerify_iff_satisfiable :
    ∀ (hints : List Nat) (cells : List CellValue), (∀ x ∈ hints, 0 < x) →
      (doVerify cells hints = true ↔ Satisfiable cells hints)
  | [], cells, _ => by
    cases cells with
    | nil =>
      simp [doVerify, satisfiable_nil_iff]
    | cons c rest =>
      rw [satisfiable_nil_hints_iff]
      simp [doVerify, List.all_eq_true]
  | h :: hs, cells, hpos => by
    have hposh : 0 < h := hpos h (by simp)
    have hposhs : ∀ x ∈ hs, 0 < x := fun x hx => hpos x (by simp [hx])
    cases cells with
    | nil =>
      rw [satisfiable_nil_iff]
      simp [doVerify]
    | cons c rest =>
      rw [satisfiable_cons_iff h hposh hs (c :: rest)]
      by_cases hlen : h > (c :: rest).length
      · simp only [doVerify, hlen, if_true]
        constructor
        · simp
        · rintro ⟨s, hs1, _⟩
          simp only [List.length_cons] at hs1 hlen
          omega
      · simp only [doVerify, hlen, if_false]
        rw [tryPlace_iff]
        constructor
        · rintro ⟨s, h1, h2, h3⟩
          rw [placeOk_iff] at h3
          obtain ⟨ha, hb, hk⟩ := h3
          have hdr : (((c :: rest).drop s).drop (h + 1)) = (c :: rest).drop (s + h + 1) := by
            rw [List.drop_drop, Nat.add_assoc]
          exact ⟨s, h1, h2, ha, hb,
            (doVerify_iff_satisfiable hs _ hposhs).mp (hdr ▸ hk)⟩
        · rintro ⟨s, h1, h2, ha, hb, hsat⟩
          have hdr : (((c :: rest).drop s).drop (h + 1)) = (c :: rest).drop (s + h + 1) := by
            rw [List.drop_drop, Nat.add_assoc]
          refine ⟨s, h1, h2, ?_⟩
          rw [placeOk_iff]
          exact ⟨ha, hb, by
            rw [hdr]
            exact (doVerify_iff_satisfiable hs _ hposhs).mpr hsat⟩

/-! ## Valid completions as a list -/

theorem mem_completionsOf : ∀ (cells c : List CellValue),
    c ∈ completionsOf cells ↔ IsCompletion c cells
  | [], c => by cases c <;> simp [completionsOf, IsCompletion]
  | x :: rest, c => by
    have ih := fun c => mem_completionsOf rest c
    cases c with
    | nil =>
      cases x <;> simp [completionsOf, IsCompletion]
    | cons y c' =>
      cases x <;>
        simp [completionsOf, IsCompletion, ih, List.mem_append, List.mem_map,
          eq_comm (a := y)] <;>
        tauto

theorem mem_validCompsOf (d cells : List CellValue) (hints : List Nat) :
    d ∈ validCompsOf cells hints ↔ IsCompletion d cells ∧ runsOf d = hints := by
  rw [validCompsOf, List.mem_filter, mem_completionsOf]
  simp

theorem satisfiable_iff_validCompsOf (cells : List CellValue) (hints : List Nat) :
    Satisfiable cells hints ↔ validCompsOf cells hints ≠ [] := by
  constructor
  · rintro ⟨d, hd, hr⟩ hnil
    have hmem : d ∈ validCompsOf cells hints := (mem_validCompsOf d cells hints).mpr ⟨hd, hr⟩
    rw [hnil] at hmem
    simp at hmem
  · intro hne
    rcases hvc : validCompsOf cells hints with _ | ⟨d, rest⟩
    · exact absurd hvc hne
    · have hd : d ∈ validCompsOf cells hints := by rw [hvc]; simp
      obtain ⟨h1, h2⟩ := (mem_validCompsOf d cells hints).mp hd
      exact ⟨d, h1, h2⟩

theorem satB_iff (cells : List CellValue) (hints : List Nat) :
    satB cells hints = true ↔ Satisfiable cells hints := by
  rw [satB, List.any_eq_true]
  constructor
  · rintro ⟨c, hc, hr⟩
    exact ⟨c, (mem_completionsOf cells c).mp hc, by simpa using hr⟩
  · rintro ⟨c, hc, hr⟩
    exact ⟨c, (mem_completionsOf cells c).mpr hc, by simpa using hr⟩

/-- Setting an Unknown cell to a known value keeps exactly the completions
that agree with the new value. -/
theorem completionsOf_set :
    ∀ (cells : List CellValue) (i : Nat) (v : CellValue),
      i < cells.length → cells.getD i CellValue.Unknown = CellValue.Unknown →
      v ≠ CellValue.Unknown →
      completionsOf (cells.set i v)
        = (completionsOf cells).filter
            (fun c => c.getD i CellValue.Unknown == v)
  | [], i, v, hi, _, _ => by simp at hi
  | x :: rest, 0, v, hi, hu, hv => by
    have hx : x = CellValue.Unknown := by simpa using hu
    subst hx
    rcases hvfe : v with _ | _ | _
    · simp [completionsOf, List.filter_append, List.filter_map,
        Function.comp_def, List.filter_eq_self, List.filter_eq_nil_iff]
    · simp [completionsOf, List.filter_append, List.filter_map,
        Function.comp_def, List.filter_eq_self, List.filter_eq_nil_iff]
    · exact (hv hvfe).elim
  | x :: rest, i + 1, v, hi, hu, hv => by
    have hi2 : i < rest.length := by simpa using hi
    have hu2 : rest.getD i CellValue.Unknown = CellValue.Unknown := by simpa using hu
    have ih := completionsOf_set rest i v hi2 hu2 hv
    cases x <;>
      simp [completionsOf, List.set, ih, List.filter_append, List.filter_map,
        Function.comp_def]

theorem validCompsOf_set (cells : List CellValue) (hints : List Nat) (i : Nat)
    (v : CellValue) (hi : i < cells.length)
    (hu : cells.getD i CellValue.Unknown = CellValue.Unknown)
    (hv : v ≠ CellValue.Unknown) :
    validCompsOf (cells.set i v) hints
      = (validCompsOf cells hints).filter
          (fun c => c.getD i CellValue.Unknown == v) := by
  rw [validCompsOf, completionsOf_set cells i v hi hu hv, List.filter_filter,
    validCompsOf, List.filter_filter]
  congr 1
  funext c
  rw [Bool.and_comm]

/-- Value of a completion at one position. -/
theorem isCompletion_getD :
    ∀ {d cells : List CellValue}, IsCompletion d cells →
      ∀ i, i < cells.length →
        (cells.getD i CellValue.Unknown = CellValue.Unknown →
          d.getD i CellValue.Unknown = CellValue.Filled ∨
            d.getD i CellValue.Unknown = CellValue.Empty) ∧
        (cells.getD i CellValue.Unknown ≠ CellValue.Unknown →
          d.getD i CellValue.Unknown = cells.getD i CellValue.Unknown)
  | _, [], _, i, hi => by simp at hi
  | y :: d', x :: cells', h, 0, _ => by
    refine ⟨fun hu => ?_, fun hk => ?_⟩
    · have hx : x = CellValue.Unknown := by simpa using hu
      subst hx
      simpa using h.1
    · have hx : x ≠ CellValue.Unknown := by simpa using hk
      simp only [List.getD_cons_zero]
      have := h.1
      rw [if_neg hx] at this
      simpa using this
  | y :: d', x :: cells', h, i + 1, hi => by
    have hi2 : i < cells'.length := by simpa using hi
    simpa using isCompletion_getD h.2 i hi2
  | [], _ :: _, h, _, _ => absurd h (by simp [IsCompletion])

theorem forcedValueAt_eq_some_iff (cells : List CellValue) (hints : List Nat)
    (i : Nat) (hne : validCompsOf cells hints ≠ []) (v : CellValue) :
    forcedValueAt cells hints i = some v ↔
      ∀ d ∈ validCompsOf cells hints, d.getD i CellValue.Unknown = v := by
  rcases hvc : validCompsOf cells hints with _ | ⟨c, rest⟩
  · exact absurd hvc hne
  · simp only [forcedValueAt, hvc]
    by_cases hall : rest.all
        (fun d => d.getD i CellValue.Unknown == c.getD i CellValue.Unknown) = true
    · rw [if_pos hall]
      have hall2 := List.all_eq_true.mp hall
      constructor
      · rintro heq d hd
        have hv : v = c.getD i CellValue.Unknown := by
          cases heq; rfl
        subst hv
        rcases List.mem_cons.mp hd with rfl | hd
        · rfl
        · simpa using hall2 d hd
      · intro h
        have := h c (by simp)
        rw [this]
    · simp only [if_neg hall]
      constructor
      · simp
      · intro h
        exfalso
        apply hall
        rw [List.all_eq_true]
        intro d hd
        have h1 := h d (by simp [hd])
        have h2 := h c (by simp)
        rw [h1, h2]
        simp

theorem forcedValueAt_known (cells : List CellValue) (hints : List Nat)
    (i : Nat) (v : CellValue) (hi : i < cells.length)
    (hu : cells.getD i CellValue.Unknown = CellValue.Unknown)
    (hf : forcedValueAt cells hints i = some v) :
    v = CellValue.Filled ∨ v = CellValue.Empty := by
  rcases hvc : validCompsOf cells hints with _ | ⟨c, rest⟩
  · rw [forcedValueAt, hvc] at hf
    simp at hf
  · have hc : c ∈ validCompsOf cells hints := by rw [hvc]; simp
    obtain ⟨hcomp, _⟩ := (mem_validCompsOf c cells hints).mp hc
    have hval := ((isCompletion_getD hcomp i hi).1 hu)
    have hcv : c.getD i CellValue.Unknown = v := by
      have hne : validCompsOf cells hints ≠ [] := by rw [hvc]; simp
      exact (forcedValueAt_eq_some_iff cells hints i hne v).mp hf c hc
    rw [hcv] at hval
    exact hval

/-! ## The deduction loop computes the forced values -/

theorem getD_set_ne {α : Type} (l : List α) (i j : Nat) (v d : α)
    (h : i ≠ j) : (l.set i v).getD j d = l.getD j d := by
  simp [List.getD_eq_getElem?_getD, List.getElem?_set_ne h]

theorem getD_set_self {α : Type} (l : List α) (i : Nat) (v d : α)
    (h : i < l.length) : (l.set i v).getD i d = v := by
  simp [List.getD_eq_getElem?_getD, List.getElem?_set_self h]

theorem cellIdx_lineCoords (lt : LineType) (li idx : Nat) (v : CellValue) :
    (Assumption.mk (lineCoords lt li idx) v).cellIdx lt = idx := by
  cases lt <;> rfl

/-- The single-cell trial of the deduction loop fails exactly when no
valid arrangement puts the trial value there. -/
theorem verify_set_false_iff (hints : List Nat) (hpos : ∀ x ∈ hints, 0 < x)
    (cur : List CellValue) (idx : Nat) (v : CellValue) (hidx : idx < cur.length)
    (hcu : cur.getD idx CellValue.Unknown = CellValue.Unknown)
    (hv : v ≠ CellValue.Unknown) :
    verifyLine hints (cur.set idx v) = false ↔
      ∀ d ∈ validCompsOf cur hints, d.getD idx CellValue.Unknown ≠ v := by
  have hmain := doVerify_iff_satisfiable hints (cur.set idx v) hpos
  rw [verifyLine]
  constructor
  · intro hfalse d hd hdv
    have hsat : Satisfiable (cur.set idx v) hints := by
      rw [satisfiable_iff_validCompsOf, validCompsOf_set cur hints idx v hidx hcu hv]
      intro hnil
      rw [List.filter_eq_nil_iff] at hnil
      exact hnil d hd (beq_iff_eq.mpr hdv)
    rw [hmain.mpr hsat] at hfalse
    cases hfalse
  · intro hall
    by_contra htrue
    have hT : doVerify (cur.set idx v) hints = true := by
      cases hcase : doVerify (cur.set idx v) hints
      · exact absurd hcase htrue
      · rfl
    have hsat := hmain.mp hT
    rw [satisfiable_iff_validCompsOf, validCompsOf_set cur hints idx v hidx hcu hv] at hsat
    rcases hflt : (validCompsOf cur hints).filter
        (fun c => c.getD idx CellValue.Unknown == v) with _ | ⟨d, rest⟩
    · exact hsat hflt
    · have hd : d ∈ (validCompsOf cur hints).filter
          (fun c => c.getD idx CellValue.Unknown == v) := by rw [hflt]; simp
      have hmem := List.mem_filter.mp hd
      exact hall d hmem.1 (by simpa using hmem.2)

/-- Setting a cell to the value all valid arrangements give it keeps the
valid arrangements unchanged. -/
theorem validCompsOf_set_forced (cur : List CellValue) (hints : List Nat)
    (idx : Nat) (v : CellValue) (hidx : idx < cur.length)
    (hcu : cur.getD idx CellValue.Unknown = CellValue.Unknown)
    (hv : v ≠ CellValue.Unknown)
    (hall : ∀ d ∈ validCompsOf cur hints, d.getD idx CellValue.Unknown = v) :
    validCompsOf (cur.set idx v) hints = validCompsOf cur hints := by
  rw [validCompsOf_set cur hints idx v hidx hcu hv]
  exact List.filter_eq_self.mpr (fun d hd => beq_iff_eq.mpr (hall d hd))

/-- Invariant of the deduction loop: over any duplicate-free index list,
the emitted assumptions are exactly the forced values of the original
line, the valid arrangements are preserved, and the final buffer is the
original with the emitted assumptions applied. -/
theorem solveLoop_spec (lt : LineType) (li : Nat) (hints : List Nat)
    (hpos : ∀ x ∈ hints, 0 < x) (cells0 : List CellValue)
    (hne : validCompsOf cells0 hints ≠ []) :
    ∀ (idxs : List Nat) (cur : List CellValue),
      idxs.Nodup →
      (∀ j ∈ idxs, j < cells0.length) →
      cur.length = cells0.length →
      validCompsOf cur hints = validCompsOf cells0 hints →
      (∀ j ∈ idxs, cur.getD j CellValue.Unknown = cells0.getD j CellValue.Unknown) →
      (solveLoop lt li hints cur idxs).2
          = idxs.filterMap (fun i =>
              if cells0.getD i CellValue.Unknown = CellValue.Unknown then
                (forcedValueAt cells0 hints i).map
                  (fun v => ⟨lineCoords lt li i, v⟩)
              else none)
        ∧ (solveLoop lt li hints cur idxs).1.length = cells0.length
        ∧ validCompsOf (solveLoop lt li hints cur idxs).1 hints
            = validCompsOf cells0 hints
        ∧ applyToLine lt cur (solveLoop lt li hints cur idxs).2
            = (solveLoop lt li hints cur idxs).1
        ∧ (∀ j, j ∉ idxs →
            (solveLoop lt li hints cur idxs).1.getD j CellValue.Unknown
              = cur.getD j CellValue.Unknown)
        ∧ (∀ j ∈ idxs,
            (solveLoop lt li hints cur idxs).1.getD j CellValue.Unknown
              = if cells0.getD j CellValue.Unknown = CellValue.Unknown then
                  (forcedValueAt cells0 hints j).getD CellValue.Unknown
                else cells0.getD j CellValue.Unknown)
  | [], cur, _, _, hlen, hvc, _ => by
    simp [solveLoop, applyToLine, hlen, hvc]
  | idx :: rest, cur, hnodup, hbound, hlen, hvc, hagree => by
    obtain ⟨hidxnotin, hnodup2⟩ := List.nodup_cons.mp hnodup
    have hbound2 : ∀ j ∈ rest, j < cells0.length := fun j hj => hbound j (by simp [hj])
    have hidx0 : idx < cells0.length := hbound idx (by simp)
    have hidxc : idx < cur.length := by omega
    by_cases hcu : cur.getD idx CellValue.Unknown = CellValue.Unknown
    · -- unknown cell: run the two trials
      have hc0u : cells0.getD idx CellValue.Unknown = CellValue.Unknown := by
        rw [← hagree idx (by simp)]
        exact hcu
      by_cases hF : verifyLine hints (cur.set idx CellValue.Filled) = false
      · -- Filled trial fails: forced Empty
        have hallE : ∀ d ∈ validCompsOf cur hints,
            d.getD idx CellValue.Unknown = CellValue.Empty := by
          have hnotF := (verify_set_false_iff hints hpos cur idx CellValue.Filled
            hidxc hcu (by simp)).mp hF
          intro d hd
          obtain ⟨hcomp, _⟩ := (mem_validCompsOf d cur hints).mp hd
          rcases (isCompletion_getD hcomp idx hidxc).1 hcu with h | h
          · exact absurd h (hnotF d hd)
          · exact h
        have hallE0 : ∀ d ∈ validCompsOf cells0 hints,
            d.getD idx CellValue.Unknown = CellValue.Empty := by
          rw [← hvc]
          exact hallE
        have hforced : forcedValueAt cells0 hints idx = some CellValue.Empty :=
          (forcedValueAt_eq_some_iff cells0 hints idx hne _).mpr hallE0
        have hvc2 : validCompsOf (cur.set idx CellValue.Empty) hints
            = validCompsOf cells0 hints := by
          rw [validCompsOf_set_forced cur hints idx CellValue.Empty hidxc hcu
            (by simp) hallE, hvc]
        have hagree2 : ∀ j ∈ rest,
            (cur.set idx CellValue.Empty).getD j CellValue.Unknown
              = cells0.getD j CellValue.Unknown := by
          intro j hj
          rw [getD_set_ne cur idx j _ _ (fun h => hidxnotin (h ▸ hj))]
          exact hagree j (by simp [hj])
        obtain ⟨ih1, ih2, ih3, ih4, ih5, ih6⟩ :=
          solveLoop_spec lt li hints hpos cells0 hne rest
            (cur.set idx CellValue.Empty) hnodup2 hbound2 (by simpa using hlen)
            hvc2 hagree2
        rcases hres : solveLoop lt li hints (cur.set idx CellValue.Empty) rest
          with ⟨cfin, acc⟩
        rw [hres] at ih1 ih2 ih3 ih4 ih5 ih6
        have hstep : solveLoop lt li hints cur (idx :: rest)
            = (cfin, ⟨lineCoords lt li idx, CellValue.Empty⟩ :: acc) := by
          simp only [solveLoop, hcu, hF]
          simp [hres]
        rw [hstep]
        refine ⟨?_, by simpa using ih2, by simpa using ih3, ?_, ?_, ?_⟩
        · simp only [List.filterMap_cons, hc0u, if_pos rfl, hforced]
          simpa using ih1
        · simp only [applyToLine, List.foldl_cons]
          rw [cellIdx_lineCoords]
          exact ih4
        · intro j hj
          have hjr : j ∉ rest := fun hh => hj (by simp [hh])
          have hji : j ≠ idx := fun hh => hj (by simp [hh])
          simp only []
          rw [ih5 j hjr, getD_set_ne cur idx j _ _ (fun h => hji h.symm)]
        · intro j hj
          rcases List.mem_cons.mp hj with rfl | hj
          · rw [ih5 j hidxnotin, getD_set_self cur j _ _ hidxc, hc0u, if_pos rfl,
              hforced]
            rfl
          · exact ih6 j hj
      · by_cases hE : verifyLine hints (cur.set idx CellValue.Empty) = false
        · -- Empty trial fails: forced Filled
          have hallF : ∀ d ∈ validCompsOf cur hints,
              d.getD idx CellValue.Unknown = CellValue.Filled := by
            have hnotE := (verify_set_false_iff hints hpos cur idx CellValue.Empty
              hidxc hcu (by simp)).mp hE
            intro d hd
            obtain ⟨hcomp, _⟩ := (mem_validCompsOf d cur hints).mp hd
            rcases (isCompletion_getD hcomp idx hidxc).1 hcu with h | h
            · exact h
            · exact absurd h (hnotE d hd)
          have hallF0 : ∀ d ∈ validCompsOf cells0 hints,
              d.getD idx CellValue.Unknown = CellValue.Filled := by
            rw [← hvc]
            exact hallF
          have hforced : forcedValueAt cells0 hints idx = some CellValue.Filled :=
            (forcedValueAt_eq_some_iff cells0 hints idx hne _).mpr hallF0
          have hvc2 : validCompsOf (cur.set idx CellValue.Filled) hints
              = validCompsOf cells0 hints := by
            rw [validCompsOf_set_forced cur hints idx CellValue.Filled hidxc hcu
              (by simp) hallF, hvc]
          have hagree2 : ∀ j ∈ rest,
              (cur.set idx CellValue.Filled).getD j CellValue.Unknown
                = cells0.getD j CellValue.Unknown := by
            intro j hj
            rw [getD_set_ne cur idx j _ _ (fun h => hidxnotin (h ▸ hj))]
            exact hagree j (by simp [hj])
          obtain ⟨ih1, ih2, ih3, ih4, ih5, ih6⟩ :=
            solveLoop_spec lt li hints hpos cells0 hne rest
              (cur.set idx CellValue.Filled) hnodup2 hbound2 (by simpa using hlen)
              hvc2 hagree2
          rcases hres : solveLoop lt li hints (cur.set idx CellValue.Filled) rest
            with ⟨cfin, acc⟩
          rw [hres] at ih1 ih2 ih3 ih4 ih5 ih6
          have hstep : solveLoop lt li hints cur (idx :: rest)
              = (cfin, ⟨lineCoords lt li idx, CellValue.Filled⟩ :: acc) := by
            simp only [solveLoop, hcu, hF, hE]
            simp [hres, hF]
          rw [hstep]
          refine ⟨?_, by simpa using ih2, by simpa using ih3, ?_, ?_, ?_⟩
          · simp only [List.filterMap_cons, hc0u, if_pos rfl, hforced]
            simpa using ih1
          · simp only [applyToLine, List.foldl_cons]
            rw [cellIdx_lineCoords]
            exact ih4
          · intro j hj
            have hjr : j ∉ rest := fun hh => hj (by simp [hh])
            have hji : j ≠ idx := fun hh => hj (by simp [hh])
            simp only []
            rw [ih5 j hjr, getD_set_ne cur idx j _ _ (fun h => hji h.symm)]
          · intro j hj
            rcases List.mem_cons.mp hj with rfl | hj
            · rw [ih5 j hidxnotin, getD_set_self cur j _ _ hidxc, hc0u, if_pos rfl,
                hforced]
              rfl
            · exact ih6 j hj
        · -- both trials pass: nothing forced
          have hFex : ∃ d ∈ validCompsOf cur hints,
              d.getD idx CellValue.Unknown = CellValue.Filled := by
            by_contra hno
            push_neg at hno
            exact hF ((verify_set_false_iff hints hpos cur idx CellValue.Filled
              hidxc hcu (by simp)).mpr hno)
          have hEex : ∃ d ∈ validCompsOf cur hints,
              d.getD idx CellValue.Unknown = CellValue.Empty := by
            by_contra hno
            push_neg at hno
            exact hE ((verify_set_false_iff hints hpos cur idx CellValue.Empty
              hidxc hcu (by simp)).mpr hno)
          have hfnone : forcedValueAt cells0 hints idx = none := by
            rcases hfv : forcedValueAt cells0 hints idx with _ | v
            · rfl
            · exfalso
              have hall := (forcedValueAt_eq_some_iff cells0 hints idx hne v).mp hfv
              obtain ⟨dF, hdF, hdFv⟩ := hFex
              obtain ⟨dE, hdE, hdEv⟩ := hEex
              have h1 := hall dF (hvc ▸ hdF)
              have h2 := hall dE (hvc ▸ hdE)
              rw [hdFv] at h1
              rw [hdEv] at h2
              rw [← h1] at h2
              cases h2
          obtain ⟨ih1, ih2, ih3, ih4, ih5, ih6⟩ :=
            solveLoop_spec lt li hints hpos cells0 hne rest cur hnodup2 hbound2
              hlen hvc (fun j hj => hagree j (by simp [hj]))
          have hstep : solveLoop lt li hints cur (idx :: rest)
              = solveLoop lt li hints cur rest := by
            simp only [solveLoop, hcu, hF, hE]
            simp [hF, hE]
          rw [hstep]
          refine ⟨?_, ih2, ih3, ih4, ?_, ?_⟩
          · simp only [List.filterMap_cons, hc0u, if_pos rfl, hfnone]
            simpa using ih1
          · intro j hj
            exact ih5 j (fun hh => hj (by simp [hh]))
          · intro j hj
            rcases List.mem_cons.mp hj with rfl | hj
            · rw [ih5 j hidxnotin, hcu, if_pos hc0u, hfnone]
              rfl
            · exact ih6 j hj
    · -- known cell: skipped
      have hc0k : cells0.getD idx CellValue.Unknown ≠ CellValue.Unknown := by
        rw [← hagree idx (by simp)]
        exact hcu
      obtain ⟨ih1, ih2, ih3, ih4, ih5, ih6⟩ :=
        solveLoop_spec lt li hints hpos cells0 hne rest cur hnodup2 hbound2
          hlen hvc (fun j hj => hagree j (by simp [hj]))
      have hstep : solveLoop lt li hints cur (idx :: rest)
          = solveLoop lt li hints cur rest := by
        simp only [solveLoop]
        rw [if_pos hcu]
      rw [hstep]
      refine ⟨?_, ih2, ih3, ih4, ?_, ?_⟩
      · simp only [List.filterMap_cons, if_neg hc0k]
        exact ih1
      · intro j hj
        exact ih5 j (fun hh => hj (by simp [hh]))
      · intro j hj
        rcases List.mem_cons.mp hj with rfl | hj
        · rw [ih5 j hidxnotin, hagree j (by simp), if_neg hc0k]
        · exact ih6 j hj

/-! ## The all-Unknown line and the length formula -/

theorem drop_replicate (a : CellValue) :
    ∀ (L n : Nat), (List.replicate L a).drop n = List.replicate (L - n) a
  | L, 0 => by simp
  | 0, n => by simp
  | L + 1, n + 1 => by
    rw [List.replicate_succ, List.drop_succ_cons, drop_replicate a L n]
    congr 1
    omega

/-- The runs of a line, with the mandatory gaps, fit in the line. -/
theorem runsAcc_sum_length_bound :
    ∀ (c : List CellValue) (n : Nat),
      (runsAcc c n).sum + (runsAcc c n).length ≤ c.length + n + 1
  | [], 0 => by simp [runsAcc]
  | [], n + 1 => by
    simp only [runsAcc, List.sum_cons, List.sum_nil, List.length_cons,
      List.length_nil]
    omega
  | .Filled :: rest, n => by
    rw [runsAcc_filled]
    have := runsAcc_sum_length_bound rest (n + 1)
    simp only [List.length_cons]
    omega
  | .Empty :: rest, 0 => by
    rw [runsAcc_nonfilled (by simp) rest]
    have := runsAcc_sum_length_bound rest 0
    simp only [List.length_cons]
    omega
  | .Empty :: rest, n + 1 => by
    rw [runsAcc_nonfilled_succ (by simp) rest n]
    have := runsAcc_sum_length_bound rest 0
    simp only [List.length_cons, List.sum_cons]
    omega
  | .Unknown :: rest, 0 => by
    rw [runsAcc_nonfilled (by simp) rest]
    have := runsAcc_sum_length_bound rest 0
    simp only [List.length_cons]
    omega
  | .Unknown :: rest, n + 1 => by
    rw [runsAcc_nonfilled_succ (by simp) rest n]
    have := runsAcc_sum_length_bound rest 0
    simp only [List.length_cons, List.sum_cons]
    omega

theorem runsOf_sum_length_bound (c : List CellValue) :
    (runsOf c).sum + (runsOf c).length ≤ c.length + 1 := by
  have := runsAcc_sum_length_bound c 0
  simpa [runsOf] using this

/-- Spec-side form of the claim C6 formula: an all-Unknown line of length
`L` admits the hints exactly when their sum plus the mandatory gaps fits. -/
theorem satisfiable_replicate_unknown :
    ∀ (hints : List Nat), (∀ x ∈ hints, 0 < x) → ∀ L : Nat,
      (Satisfiable (List.replicate L CellValue.Unknown) hints ↔
        hints.sum + hints.length ≤ L + 1)
  | [], _, L => by
    rw [satisfiable_nil_hints_iff]
    simp only [List.sum_nil, List.length_nil, Nat.add_zero]
    constructor
    · intro _
      omega
    · intro _ x hx
      rw [List.mem_replicate] at hx
      rw [hx.2]
      simp
  | h :: hs, hpos, L => by
    have hposh : 0 < h := hpos h (by simp)
    have hposhs : ∀ x ∈ hs, 0 < x := fun x hx => hpos x (by simp [hx])
    constructor
    · rintro ⟨c, hc, hr⟩
      have hlen : c.length = L := by
        have := isCompletion_length hc
        simpa using this
      have hbound := runsOf_sum_length_bound c
      rw [hr, hlen] at hbound
      exact hbound
    · intro hfit
      have hsum : h + (hs.sum + (hs.length + 1)) ≤ L + 1 := by
        simp only [List.sum_cons, List.length_cons] at hfit
        omega
      rw [satisfiable_cons_iff h hposh hs _]
      refine ⟨0, ?_, by simp, ?_, ?_, ?_⟩
      · simp only [Nat.zero_add, List.length_replicate]
        omega
      · intro x hx
        have := List.mem_of_mem_take hx
        rw [List.drop_zero] at this
        rw [(List.mem_replicate.mp this).2]
        simp
      · rw [List.drop_zero, drop_replicate]
        rcases hLh : L - h with _ | m
        · simp
        · simp [List.replicate_succ]
      · rw [drop_replicate]
        rw [satisfiable_replicate_unknown hs hposhs (L - (0 + h + 1))]
        omega

/-- C4: the line propagator is correct.  For positive hints (the data
model restricts hints to positive integers): `do_solve` returns `none`
exactly when no assignment of the Unknown cells satisfies the hints;
otherwise it returns, in index order, exactly one assumption for each
previously-Unknown cell on which every valid arrangement agrees, with the
line's absolute coordinates; and `forcedValueAt` means precisely "the
value every valid arrangement gives this cell", which is `Filled` or
`Empty`, never `Unknown`. -/
theorem line_propagator_correct (lt : LineType) (li : Nat) (hints : List Nat)
    (cells : List CellValue) (hpos : ∀ x ∈ hints, 0 < x) :
    (lineDoSolve lt li hints cells = none ↔ ¬ Satisfiable cells hints)
      ∧ (∀ asms, lineDoSolve lt li hints cells = some asms →
          asms = (List.range cells.length).filterMap (fun i =>
              if cells.getD i CellValue.Unknown = CellValue.Unknown then
                (forcedValueAt cells hints i).map
                  (fun v => ⟨lineCoords lt li i, v⟩)
              else none)
            ∧ ∀ a ∈ asms, a.val = CellValue.Filled ∨ a.val = CellValue.Empty)
      ∧ (∀ i v, i < cells.length →
          cells.getD i CellValue.Unknown = CellValue.Unknown →
          (forcedValueAt cells hints i = some v ↔
            Satisfiable cells hints ∧
              (v = CellValue.Filled ∨ v = CellValue.Empty) ∧
              ∀ d, IsCompletion d cells → runsOf d = hints →
                d.getD i CellValue.Unknown = v)) := by
  have hmain : verifyLine hints cells = true ↔ Satisfiable cells hints :=
    doVerify_iff_satisfiable hints cells hpos
  have hspec : ∀ hsat : Satisfiable cells hints,
      (solveLoop lt li hints cells (List.range cells.length)).2
        = (List.range cells.length).filterMap (fun i =>
            if cells.getD i CellValue.Unknown = CellValue.Unknown then
              (forcedValueAt cells hints i).map
                (fun v => ⟨lineCoords lt li i, v⟩)
            else none) := by
    intro hsat
    have hne := (satisfiable_iff_validCompsOf cells hints).mp hsat
    exact (solveLoop_spec lt li hints hpos cells hne (List.range cells.length)
      cells (List.nodup_range _) (fun j hj => List.mem_range.mp hj) rfl rfl
      (fun j _ => rfl)).1
  refine ⟨?_, ?_, ?_⟩
  · by_cases hb : verifyLine hints cells = true
    · simp [lineDoSolve, hb, hmain.mp hb]
    · have hb2 : verifyLine hints cells = false := by
        cases hcase : verifyLine hints cells
        · rfl
        · exact absurd hcase hb
      simp only [lineDoSolve, hb2, Bool.not_false, if_pos rfl]
      constructor
      · intro _ hsat
        rw [hmain.mpr hsat] at hb2
        cases hb2
      · intro _
        rfl
  · intro asms hasms
    by_cases hb : verifyLine hints cells = true
    · have hsat := hmain.mp hb
      have heq : asms = (solveLoop lt li hints cells (List.range cells.length)).2 := by
        rw [lineDoSolve, hb] at hasms
        simp only [Bool.not_true, Bool.false_eq_true, if_false] at hasms
        cases hasms
        rfl
      refine ⟨heq.trans (hspec hsat), ?_⟩
      intro a ha
      rw [heq, hspec hsat] at ha
      rcases List.mem_filterMap.mp ha with ⟨i, hi, hfa⟩
      by_cases hcu : cells.getD i CellValue.Unknown = CellValue.Unknown
      · rw [if_pos hcu] at hfa
        rcases hfv : forcedValueAt cells hints i with _ | v
        · rw [hfv] at hfa
          cases hfa
        · rw [hfv] at hfa
          have hav : a.val = v := by
            cases hfa
            rfl
          rw [hav]
          exact forcedValueAt_known cells hints i v (List.mem_range.mp hi) hcu hfv
      · rw [if_neg hcu] at hfa
        cases hfa
    · have hb2 : verifyLine hints cells = false := by
        cases hcase : verifyLine hints cells
        · rfl
        · exact absurd hcase hb
      rw [lineDoSolve, hb2] at hasms
      simp at hasms
  · intro i v hi hu
    constructor
    · intro hf
      have hne : validCompsOf cells hints ≠ [] := by
        intro hnil
        rw [forcedValueAt, hnil] at hf
        cases hf
      refine ⟨(satisfiable_iff_validCompsOf cells hints).mpr hne,
        forcedValueAt_known cells hints i v hi hu hf, ?_⟩
      intro d hd hr
      exact (forcedValueAt_eq_some_iff cells hints i hne v).mp hf d
        ((mem_validCompsOf d cells hints).mpr ⟨hd, hr⟩)
    · rintro ⟨hsat, _, hall⟩
      have hne := (satisfiable_iff_validCompsOf cells hints).mp hsat
      refine (forcedValueAt_eq_some_iff cells hints i hne v).mpr ?_
      intro d hd
      obtain ⟨h1, h2⟩ := (mem_validCompsOf d cells hints).mp hd
      exact hall d h1 h2

/-- Witness for C4 at the line of the crate's own test
`solve_simple_overlap_and_unreachable`: hints `[4]`, cells `~~~~~#~~`. -/
theorem line_propagator_correct_witness :
    lineDoSolve .Row 0 [4]
        [CellValue.Unknown, CellValue.Unknown, CellValue.Unknown,
          CellValue.Unknown, CellValue.Unknown, CellValue.Filled,
          CellValue.Unknown, CellValue.Unknown] = none
      ↔ ¬ Satisfiable
          [CellValue.Unknown, CellValue.Unknown, CellValue.Unknown,
            CellValue.Unknown, CellValue.Unknown, CellValue.Filled,
            CellValue.Unknown, CellValue.Unknown] [4] :=
  (line_propagator_correct .Row 0 [4] _ (by decide)).1

/-- C7: the propagator is idempotent: applying the returned assumptions to
the line and running it again forces nothing more. -/
theorem line_propagator_idempotent (lt : LineType) (li : Nat)
    (hints : List Nat) (cells : List CellValue) (asms : List Assumption)
    (hpos : ∀ x ∈ hints, 0 < x)
    (hsolve : lineDoSolve lt li hints cells = some asms) :
    lineDoSolve lt li hints (applyToLine lt cells asms) = some [] := by
  have hmain : verifyLine hints cells = true ↔ Satisfiable cells hints :=
    doVerify_iff_satisfiable hints cells hpos
  have hb : verifyLine hints cells = true := by
    cases hcase : verifyLine hints cells
    · rw [lineDoSolve, hcase] at hsolve
      simp at hsolve
    · rfl
  have hsat := hmain.mp hb
  have hne := (satisfiable_iff_validCompsOf cells hints).mp hsat
  obtain ⟨ih1, ih2, ih3, ih4, ih5, ih6⟩ :=
    solveLoop_spec lt li hints hpos cells hne (List.range cells.length)
      cells (List.nodup_range _) (fun j hj => List.mem_range.mp hj) rfl rfl
      (fun j _ => rfl)
  have hasms : asms = (solveLoop lt li hints cells (List.range cells.length)).2 := by
    rw [lineDoSolve, hb] at hsolve
    simp only [Bool.not_true, Bool.false_eq_true, if_false] at hsolve
    cases hsolve
    rfl
  set cfin := (solveLoop lt li hints cells (List.range cells.length)).1 with hcfin
  have happly : applyToLine lt cells asms = cfin := by
    rw [hasms]
    exact ih4
  rw [happly]
  have hvcfin : validCompsOf cfin hints = validCompsOf cells hints := ih3
  have hsatfin : Satisfiable cfin hints := by
    rw [satisfiable_iff_validCompsOf, hvcfin]
    exact hne
  have hbfin : verifyLine hints cfin = true := by
    have hm2 : verifyLine hints cfin = true ↔ Satisfiable cfin hints :=
      doVerify_iff_satisfiable hints cfin hpos
    exact hm2.mpr hsatfin
  have hnefin : validCompsOf cfin hints ≠ [] := by
    rw [hvcfin]
    exact hne
  obtain ⟨jh1, _, _, _, _, _⟩ :=
    solveLoop_spec lt li hints hpos cfin hnefin (List.range cfin.length)
      cfin (List.nodup_range _) (fun j hj => List.mem_range.mp hj) rfl rfl
      (fun j _ => rfl)
  rw [lineDoSolve, hbfin]
  simp only [Bool.not_true, Bool.false_eq_true, if_false]
  congr 1
  rw [jh1]
  rw [List.filterMap_eq_nil_iff]
  intro i hij
  have hilen : i < cfin.length := List.mem_range.mp hij
  have hilen0 : i < cells.length := by
    rw [ih2] at hilen
    exact hilen
  by_cases hfu : cfin.getD i CellValue.Unknown = CellValue.Unknown
  · rw [if_pos hfu]
    have h6 := ih6 i (List.mem_range.mpr hilen0)
    by_cases hcu : cells.getD i CellValue.Unknown = CellValue.Unknown
    · rw [if_pos hcu] at h6
      have hforced0 : forcedValueAt cells hints i = none := by
        rcases hfv : forcedValueAt cells hints i with _ | v
        · rfl
        · exfalso
          rcases forcedValueAt_known cells hints i v hilen0 hcu hfv with rfl | rfl
          · rw [hfv] at h6
            rw [hfu] at h6
            cases h6
          · rw [hfv] at h6
            rw [hfu] at h6
            cases h6
      have hforcedfin : forcedValueAt cfin hints i = none := by
        rw [forcedValueAt, hvcfin, ← forcedValueAt]
        exact hforced0
      rw [hforcedfin]
      rfl
    · rw [if_neg hcu] at h6
      rw [h6] at hfu
      exact absurd hfu hcu
  · rw [if_neg hfu]

/-- Witness for C7 at the same test line: hints `[4]`, cells `~~~~~#~~`. -/
theorem line_propagator_idempotent_witness :
    lineDoSolve .Row 0 [4]
        (applyToLine .Row
          [CellValue.Unknown, CellValue.Unknown, CellValue.Unknown,
            CellValue.Unknown, CellValue.Unknown, CellValue.Filled,
            CellValue.Unknown, CellValue.Unknown]
          [⟨(0, 0), CellValue.Empty⟩, ⟨(0, 1), CellValue.Empty⟩,
            ⟨(0, 4), CellValue.Filled⟩])
      = some [] :=
  line_propagator_idempotent .Row 0 [4] _ _ (by decide) (by decide)

/-- C6: on an all-Unknown line of length `L` with positive hints, `verify`
holds exactly when the hint sum plus the mandatory gaps fits in `L`
(`Σ hᵢ + (k − 1) ≤ L`, written here without truncated subtraction); with
an empty hint list a line verifies exactly when it has no Filled cell, in
which case the propagator forces every Unknown cell to `Empty`. -/
theorem line_edge_cases :
    (∀ (L : Nat) (hints : List Nat), (∀ x ∈ hints, 0 < x) →
        (verifyLine hints (List.replicate L CellValue.Unknown) = true ↔
          hints.sum + hints.length ≤ L + 1))
      ∧ (∀ cells : List CellValue,
          verifyLine [] cells = true ↔ ∀ x ∈ cells, x ≠ CellValue.Filled)
      ∧ (∀ (lt : LineType) (li : Nat) (cells : List CellValue),
          (∀ x ∈ cells, x ≠ CellValue.Filled) →
          lineDoSolve lt li [] cells
            = some ((List.range cells.length).filterMap (fun i =>
                if cells.getD i CellValue.Unknown = CellValue.Unknown then
                  some ⟨lineCoords lt li i, CellValue.Empty⟩
                else none))) := by
  refine ⟨?_, ?_, ?_⟩
  · intro L hints hpos
    rw [verifyLine, doVerify_iff_satisfiable hints _ hpos]
    exact satisfiable_replicate_unknown hints hpos L
  · intro cells
    rw [verifyLine, doVerify_iff_satisfiable [] cells (by simp)]
    exact satisfiable_nil_hints_iff cells
  · intro lt li cells hnof
    have hsat : Satisfiable cells [] := (satisfiable_nil_hints_iff cells).mpr hnof
    have hb : verifyLine [] cells = true := by
      have hm : verifyLine [] cells = true ↔ Satisfiable cells [] :=
        doVerify_iff_satisfiable [] cells (by simp)
      exact hm.mpr hsat
    have hne := (satisfiable_iff_validCompsOf cells []).mp hsat
    obtain ⟨ih1, _, _, _, _, _⟩ :=
      solveLoop_spec lt li [] (by simp) cells hne (List.range cells.length)
        cells (List.nodup_range _) (fun j hj => List.mem_range.mp hj) rfl rfl
        (fun j _ => rfl)
    rw [lineDoSolve, hb]
    simp only [Bool.not_true, Bool.false_eq_true, if_false]
    congr 1
    rw [ih1]
    refine List.filterMap_congr ?_
    intro i hi
    by_cases hcu : cells.getD i CellValue.Unknown = CellValue.Unknown
    · rw [if_pos hcu, if_pos hcu]
      have hallE : ∀ d ∈ validCompsOf cells [], d.getD i CellValue.Unknown
          = CellValue.Empty := by
        intro d hd
        obtain ⟨hcomp, hruns⟩ := (mem_validCompsOf d cells []).mp hd
        rcases (isCompletion_getD hcomp i (List.mem_range.mp hi)).1 hcu with h | h
        · exfalso
          have hnofd := (runsOf_eq_nil_iff d).mp hruns
          have hilen2 : i < cells.length := List.mem_range.mp hi
          have hmem : d.getD i CellValue.Unknown ∈ d := by
            rw [List.getD_eq_getElem?_getD]
            rcases hgd : d[i]? with _ | y
            · rw [List.getElem?_eq_none_iff] at hgd
              have hdl := isCompletion_length hcomp
              omega
            · simpa using List.getElem?_mem hgd
          rw [h] at hmem
          exact hnofd _ hmem rfl
        · exact h
      rw [(forcedValueAt_eq_some_iff cells [] i hne CellValue.Empty).mpr hallE]
      rfl
    · rw [if_neg hcu, if_neg hcu]

/-- Witness for C6: hints `[2,3]` need 6 cells, so a 5-cell all-Unknown
line fails and a 6-cell one verifies; scenario 5 of the spec forces the
Unknown cells of `~.~` to Empty under empty hints. -/
theorem line_edge_cases_witness :
    (verifyLine [2, 3] (List.replicate 5 CellValue.Unknown) = true ↔
        [2, 3].sum + [2, 3].length ≤ 5 + 1)
      ∧ (verifyLine [] [CellValue.Unknown, CellValue.Empty] = true ↔
          ∀ x ∈ [CellValue.Unknown, CellValue.Empty], x ≠ CellValue.Filled)
      ∧ lineDoSolve .Row 0 [] [CellValue.Unknown, CellValue.Empty]
          = some ((List.range 2).filterMap (fun i =>
              if [CellValue.Unknown, CellValue.Empty].getD i CellValue.Unknown
                  = CellValue.Unknown then
                some ⟨lineCoords .Row 0 i, CellValue.Empty⟩
              else none)) :=
  ⟨line_edge_cases.1 5 [2, 3] (by decide),
    line_edge_cases.2.1 [CellValue.Unknown, CellValue.Empty],
    line_edge_cases.2.2 .Row 0 [CellValue.Unknown, CellValue.Empty] (by decide)⟩

/-! ## Reachability graph: well-formedness and the closure invariants -/

/-- Well-formedness of a reachability graph: table lengths match the node
count, nodes are interned once, the in/out sets are duplicate-free sets of
valid indices, contain their own index, mirror each other, and the out
relation is transitively closed. -/
structure WFGraph {T : Type} (g : RGraph T) : Prop where
  lenIn : g.reachIn.length = g.nodes.length
  lenOut : g.reachOut.length = g.nodes.length
  nodup : g.nodes.Nodup
  nodupIn : ∀ i, (g.reachIn.getD i []).Nodup
  nodupOut : ∀ i, (g.reachOut.getD i []).Nodup
  boundIn : ∀ i j, j ∈ g.reachIn.getD i [] → j < g.nodes.length
  boundOut : ∀ i j, j ∈ g.reachOut.getD i [] → j < g.nodes.length
  refl : ∀ i, i < g.nodes.length → i ∈ g.reachOut.getD i []
  symm : ∀ i j, j ∈ g.reachOut.getD i [] ↔ i ∈ g.reachIn.getD j []
  trans : ∀ i j k, j ∈ g.reachOut.getD i [] → k ∈ g.reachOut.getD j [] →
    k ∈ g.reachOut.getD i []

theorem insertNat_mem (x i : Nat) (l : List Nat) :
    x ∈ insertNat i l ↔ x ∈ l ∨ x = i := by
  unfold insertNat
  by_cases h : l.contains i
  · rw [if_pos h]
    have hi : i ∈ l := List.elem_iff.mp h
    constructor
    · exact Or.inl
    · rintro (hx | rfl)
      · exact hx
      · exact hi
  · rw [if_neg h]
    simp [List.mem_append]

theorem insertNat_nodup (i : Nat) (l : List Nat) (h : l.Nodup) :
    (insertNat i l).Nodup := by
  unfold insertNat
  by_cases hc : l.contains i
  · rwa [if_pos hc]
  · rw [if_neg hc]
    have hi : i ∉ l := fun hm => hc (List.elem_iff.mpr hm)
    simp [List.nodup_append, h, hi]

theorem setAt_length {α : Type} (ls : List (List α)) (i : Nat)
    (f : List α → List α) : (setAt ls i f).length = ls.length := by
  simp [setAt]

theorem setAt_getD_ne {α : Type} (ls : List (List α)) (i j : Nat)
    (f : List α → List α) (h : i ≠ j) :
    (setAt ls i f).getD j [] = ls.getD j [] := by
  rw [setAt]
  exact getD_set_ne ls i j _ _ h

theorem setAt_getD_self {α : Type} (ls : List (List α)) (i : Nat)
    (f : List α → List α) (h : i < ls.length) :
    (setAt ls i f).getD i [] = f (ls.getD i []) := by
  rw [setAt]
  exact getD_set_self ls i _ _ h

theorem setAt_getD_oob {α : Type} (ls : List (List α)) (i : Nat)
    (f : List α → List α) (h : ¬ i < ls.length) :
    setAt ls i f = ls := by
  rw [setAt]
  exact List.set_eq_of_length_le (by omega)

theorem insertPair_nodes {T : Type} (src dst : Nat) (g : RGraph T) :
    (insertPair src dst g).nodes = g.nodes := rfl

theorem insertPair_lenIn {T : Type} (src dst : Nat) (g : RGraph T) :
    (insertPair src dst g).reachIn.length = g.reachIn.length :=
  setAt_length _ _ _

theorem insertPair_lenOut {T : Type} (src dst : Nat) (g : RGraph T) :
    (insertPair src dst g).reachOut.length = g.reachOut.length :=
  setAt_length _ _ _

theorem insertPair_out {T : Type} (src dst : Nat) (g : RGraph T)
    (hsrc : src < g.reachOut.length) (i j : Nat) :
    (j ∈ (insertPair src dst g).reachOut.getD i [] ↔
      j ∈ g.reachOut.getD i [] ∨ (i = src ∧ j = dst)) := by
  show j ∈ (setAt g.reachOut src (insertNat dst)).getD i [] ↔ _
  by_cases hi : i = src
  · subst hi
    rw [setAt_getD_self _ _ _ hsrc, insertNat_mem]
    tauto
  · rw [setAt_getD_ne _ _ _ _ (fun h => hi h.symm)]
    tauto

theorem insertPair_in {T : Type} (src dst : Nat) (g : RGraph T)
    (hdst : dst < g.reachIn.length) (i j : Nat) :
    (j ∈ (insertPair src dst g).reachIn.getD i [] ↔
      j ∈ g.reachIn.getD i [] ∨ (i = dst ∧ j = src)) := by
  show j ∈ (setAt g.reachIn dst (insertNat src)).getD i [] ↔ _
  by_cases hi : i = dst
  · subst hi
    rw [setAt_getD_self _ _ _ hdst, insertNat_mem]
    tauto
  · rw [setAt_getD_ne _ _ _ _ (fun h => hi h.symm)]
    tauto

theorem insertPair_nodupOut {T : Type} (src dst : Nat) (g : RGraph T)
    (h : ∀ i, (g.reachOut.getD i []).Nodup) (i : Nat) :
    ((insertPair src dst g).reachOut.getD i []).Nodup := by
  show ((setAt g.reachOut src (insertNat dst)).getD i []).Nodup
  by_cases hlt : src < g.reachOut.length
  · by_cases hi : i = src
    · subst hi
      rw [setAt_getD_self _ _ _ hlt]
      exact insertNat_nodup _ _ (h _)
    · rw [setAt_getD_ne _ _ _ _ (fun hh => hi hh.symm)]
      exact h i
  · rw [setAt_getD_oob _ _ _ hlt]
    exact h i

theorem insertPair_nodupIn {T : Type} (src dst : Nat) (g : RGraph T)
    (h : ∀ i, (g.reachIn.getD i []).Nodup) (i : Nat) :
    ((insertPair src dst g).reachIn.getD i []).Nodup := by
  show ((setAt g.reachIn dst (insertNat src)).getD i []).Nodup
  by_cases hlt : dst < g.reachIn.length
  · by_cases hi : i = dst
    · subst hi
      rw [setAt_getD_self _ _ _ hlt]
      exact insertNat_nodup _ _ (h _)
    · rw [setAt_getD_ne _ _ _ _ (fun hh => hi hh.symm)]
      exact h i
  · rw [setAt_getD_oob _ _ _ hlt]
    exact h i

theorem insertCross_nodes {T : Type} (src : Nat) (nodesTo : List Nat) :
    ∀ g : RGraph T, (insertCross src nodesTo g).nodes = g.nodes := by
  induction nodesTo with
  | nil => intro g; rfl
  | cons dst rest ih =>
    intro g
    show (insertCross src rest (insertPair src dst g)).nodes = g.nodes
    rw [ih]
    rfl

theorem insertCross_lenIn {T : Type} (src : Nat) (nodesTo : List Nat) :
    ∀ g : RGraph T, (insertCross src nodesTo g).reachIn.length = g.reachIn.length := by
  induction nodesTo with
  | nil => intro g; rfl
  | cons dst rest ih =>
    intro g
    show (insertCross src rest (insertPair src dst g)).reachIn.length = _
    rw [ih, insertPair_lenIn]

theorem insertCross_lenOut {T : Type} (src : Nat) (nodesTo : List Nat) :
    ∀ g : RGraph T, (insertCross src nodesTo g).reachOut.length = g.reachOut.length := by
  induction nodesTo with
  | nil => intro g; rfl
  | cons dst rest ih =>
    intro g
    show (insertCross src rest (insertPair src dst g)).reachOut.length = _
    rw [ih, insertPair_lenOut]

theorem insertCross_out {T : Type} (src : Nat) (nodesTo : List Nat) :
    ∀ (g : RGraph T), src < g.reachOut.length → ∀ i j,
      (j ∈ (insertCross src nodesTo g).reachOut.getD i [] ↔
        j ∈ g.reachOut.getD i [] ∨ (i = src ∧ j ∈ nodesTo)) := by
  induction nodesTo with
  | nil =>
    intro g _ i j
    simp [insertCross]
  | cons dst rest ih =>
    intro g hsrc i j
    have hsrc2 : src < (insertPair src dst g).reachOut.length := by
      rw [insertPair_lenOut]
      exact hsrc
    have step : insertCross src (dst :: rest) g
        = insertCross src rest (insertPair src dst g) := rfl
    rw [step, ih (insertPair src dst g) hsrc2 i j,
      insertPair_out src dst g hsrc i j]
    constructor
    · rintro ((hb | ⟨rfl, rfl⟩) | ⟨rfl, hr⟩)
      · exact Or.inl hb
      · exact Or.inr ⟨rfl, by simp⟩
      · exact Or.inr ⟨rfl, by simp [hr]⟩
    · rintro (hb | ⟨rfl, hm⟩)
      · exact Or.inl (Or.inl hb)
      · rcases List.mem_cons.mp hm with rfl | hm
        · exact Or.inl (Or.inr ⟨rfl, rfl⟩)
        · exact Or.inr ⟨rfl, hm⟩

theorem insertCross_in {T : Type} (src : Nat) (nodesTo : List Nat) :
    ∀ (g : RGraph T), (∀ d ∈ nodesTo, d < g.reachIn.length) → ∀ i j,
      (j ∈ (insertCross src nodesTo g).reachIn.getD i [] ↔
        j ∈ g.reachIn.getD i [] ∨ (j = src ∧ i ∈ nodesTo)) := by
  induction nodesTo with
  | nil =>
    intro g _ i j
    simp [insertCross]
  | cons dst rest ih =>
    intro g hdst i j
    have hdst1 : dst < g.reachIn.length := hdst dst (by simp)
    have hdst2 : ∀ d ∈ rest, d < (insertPair src dst g).reachIn.length := by
      intro d hd
      rw [insertPair_lenIn]
      exact hdst d (by simp [hd])
    have step : insertCross src (dst :: rest) g
        = insertCross src rest (insertPair src dst g) := rfl
    rw [step, ih (insertPair src dst g) hdst2 i j,
      insertPair_in src dst g hdst1 i j]
    constructor
    · rintro ((hb | ⟨rfl, rfl⟩) | ⟨rfl, hr⟩)
      · exact Or.inl hb
      · exact Or.inr ⟨rfl, by simp⟩
      · exact Or.inr ⟨rfl, by simp [hr]⟩
    · rintro (hb | ⟨rfl, hm⟩)
      · exact Or.inl (Or.inl hb)
      · rcases List.mem_cons.mp hm with rfl | hm
        · exact Or.inl (Or.inr ⟨rfl, rfl⟩)
        · exact Or.inr ⟨rfl, hm⟩

theorem insertCross_nodupOut {T : Type} (src : Nat) (nodesTo : List Nat) :
    ∀ (g : RGraph T), (∀ i, (g.reachOut.getD i []).Nodup) → ∀ i,
      ((insertCross src nodesTo g).reachOut.getD i []).Nodup := by
  induction nodesTo with
  | nil => intro g h i; exact h i
  | cons dst rest ih =>
    intro g h i
    exact ih (insertPair src dst g) (insertPair_nodupOut src dst g h) i

theorem insertCross_nodupIn {T : Type} (src : Nat) (nodesTo : List Nat) :
    ∀ (g : RGraph T), (∀ i, (g.reachIn.getD i []).Nodup) → ∀ i,
      ((insertCross src nodesTo g).reachIn.getD i []).Nodup := by
  induction nodesTo with
  | nil => intro g h i; exact h i
  | cons dst rest ih =>
    intro g h i
    exact ih (insertPair src dst g) (insertPair_nodupIn src dst g h) i

theorem crossAll_nodes {T : Type} (nodesTo : List Nat) :
    ∀ (nodesFrom : List Nat) (g : RGraph T),
      (crossAll nodesFrom nodesTo g).nodes = g.nodes := by
  intro nodesFrom
  induction nodesFrom with
  | nil => intro g; rfl
  | cons src rest ih =>
    intro g
    show (crossAll rest nodesTo (insertCross src nodesTo g)).nodes = g.nodes
    rw [ih, insertCross_nodes]

theorem crossAll_lenIn {T : Type} (nodesTo : List Nat) :
    ∀ (nodesFrom : List Nat) (g : RGraph T),
      (crossAll nodesFrom nodesTo g).reachIn.length = g.reachIn.length := by
  intro nodesFrom
  induction nodesFrom with
  | nil => intro g; rfl
  | cons src rest ih =>
    intro g
    show (crossAll rest nodesTo (insertCross src nodesTo g)).reachIn.length = _
    rw [ih, insertCross_lenIn]

theorem crossAll_lenOut {T : Type} (nodesTo : List Nat) :
    ∀ (nodesFrom : List Nat) (g : RGraph T),
      (crossAll nodesFrom nodesTo g).reachOut.length = g.reachOut.length := by
  intro nodesFrom
  induction nodesFrom with
  | nil => intro g; rfl
  | cons src rest ih =>
    intro g
    show (crossAll rest nodesTo (insertCross src nodesTo g)).reachOut.length = _
    rw [ih, insertCross_lenOut]

theorem crossAll_out {T : Type} (nodesTo : List Nat) :
    ∀ (nodesFrom : List Nat) (g : RGraph T),
      (∀ s ∈ nodesFrom, s < g.reachOut.length) → ∀ i j,
      (j ∈ (crossAll nodesFrom nodesTo g).reachOut.getD i [] ↔
        j ∈ g.reachOut.getD i [] ∨ (i ∈ nodesFrom ∧ j ∈ nodesTo)) := by
  intro nodesFrom
  induction nodesFrom with
  | nil =>
    intro g _ i j
    simp [crossAll]
  | cons src rest ih =>
    intro g hsrc i j
    have hsrc1 : src < g.reachOut.length := hsrc src (by simp)
    have hsrc2 : ∀ s ∈ rest, s < (insertCross src nodesTo g).reachOut.length := by
      intro x hx
      rw [insertCross_lenOut]
      exact hsrc x (by simp [hx])
    have step : crossAll (src :: rest) nodesTo g
        = crossAll rest nodesTo (insertCross src nodesTo g) := rfl
    rw [step, ih (insertCross src nodesTo g) hsrc2 i j,
      insertCross_out src nodesTo g hsrc1 i j]
    constructor
    · rintro ((hb | ⟨rfl, hm⟩) | ⟨hi, hm⟩)
      · exact Or.inl hb
      · exact Or.inr ⟨by simp, hm⟩
      · exact Or.inr ⟨by simp [hi], hm⟩
    · rintro (hb | ⟨hi, hm⟩)
      · exact Or.inl (Or.inl hb)
      · rcases List.mem_cons.mp hi with rfl | hi
        · exact Or.inl (Or.inr ⟨rfl, hm⟩)
        · exact Or.inr ⟨hi, hm⟩

theorem crossAll_in {T : Type} (nodesTo : List Nat) :
    ∀ (nodesFrom : List Nat) (g : RGraph T),
      (∀ d ∈ nodesTo, d < g.reachIn.length) → ∀ i j,
      (j ∈ (crossAll nodesFrom nodesTo g).reachIn.getD i [] ↔
        j ∈ g.reachIn.getD i [] ∨ (j ∈ nodesFrom ∧ i ∈ nodesTo)) := by
  intro nodesFrom
  induction nodesFrom with
  | nil =>
    intro g _ i j
    simp [crossAll]
  | cons src rest ih =>
    intro g hdst i j
    have hdst2 : ∀ d ∈ nodesTo, d < (insertCross src nodesTo g).reachIn.length := by
      intro x hx
      rw [insertCross_lenIn]
      exact hdst x hx
    have step : crossAll (src :: rest) nodesTo g
        = crossAll rest nodesTo (insertCross src nodesTo g) := rfl
    rw [step, ih (insertCross src nodesTo g) hdst2 i j,
      insertCross_in src nodesTo g hdst i j]
    constructor
    · rintro ((hb | ⟨rfl, hm⟩) | ⟨hj, hm⟩)
      · exact Or.inl hb
      · exact Or.inr ⟨by simp, hm⟩
      · exact Or.inr ⟨by simp [hj], hm⟩
    · rintro (hb | ⟨hj, hm⟩)
      · exact Or.inl (Or.inl hb)
      · rcases List.mem_cons.mp hj with rfl | hj
        · exact Or.inl (Or.inr ⟨rfl, hm⟩)
        · exact Or.inr ⟨hj, hm⟩

theorem crossAll_nodupOut {T : Type} (nodesTo : List Nat) :
    ∀ (nodesFrom : List Nat) (g : RGraph T),
      (∀ i, (g.reachOut.getD i []).Nodup) → ∀ i,
      ((crossAll nodesFrom nodesTo g).reachOut.getD i []).Nodup := by
  intro nodesFrom
  induction nodesFrom with
  | nil => intro g h i; exact h i
  | cons src rest ih =>
    intro g h i
    exact ih (insertCross src nodesTo g) (insertCross_nodupOut src nodesTo g h) i

theorem crossAll_nodupIn {T : Type} (nodesTo : List Nat) :
    ∀ (nodesFrom : List Nat) (g : RGraph T),
      (∀ i, (g.reachIn.getD i []).Nodup) → ∀ i,
      ((crossAll nodesFrom nodesTo g).reachIn.getD i []).Nodup := by
  intro nodesFrom
  induction nodesFrom with
  | nil => intro g h i; exact h i
  | cons src rest ih =>
    intro g h i
    exact ih (insertCross src nodesTo g) (insertCross_nodupIn src nodesTo g h) i

theorem getDl_append_lt {α : Type} (l1 l2 : List α) (i : Nat) (d : α)
    (h : i < l1.length) : (l1 ++ l2).getD i d = l1.getD i d := by
  rw [List.getD_eq_getElem?_getD, List.getD_eq_getElem?_getD, List.getElem?_append]
  rw [if_pos h]

theorem getDl_append_self {α : Type} (l1 : List α) (x d : α) :
    (l1 ++ [x]).getD l1.length d = x := by
  rw [List.getD_eq_getElem?_getD, List.getElem?_append_right (le_refl _)]
  simp

theorem getDl_append_oob {α : Type} (l1 : List α) (x d : α) (i : Nat)
    (h : l1.length < i) : (l1 ++ [x]).getD i d = d := by
  apply List.getD_eq_default
  simp only [List.length_append, List.length_cons, List.length_nil]
  omega

theorem lookupIdx_lt {T : Type} [DecidableEq T] (g : RGraph T) (a : T) (i : Nat)
    (h : g.lookupIdx a = some i) : i < g.nodes.length := by
  rw [RGraph.lookupIdx, List.findIdx?_eq_some_iff_getElem] at h
  obtain ⟨hlt, _⟩ := h
  exact hlt

theorem lookupIdx_getElem {T : Type} [DecidableEq T] (g : RGraph T) (a : T) (i : Nat)
    (h : g.lookupIdx a = some i) :
    ∃ hlt : i < g.nodes.length, g.nodes.get ⟨i, hlt⟩ = a := by
  rw [RGraph.lookupIdx, List.findIdx?_eq_some_iff_getElem] at h
  obtain ⟨hlt, hp, _⟩ := h
  exact ⟨hlt, by simpa using hp⟩

theorem lookupIdx_mem_some {T : Type} [DecidableEq T] (g : RGraph T) (a : T)
    (h : a ∈ g.nodes) : ∃ i, g.lookupIdx a = some i := by
  cases hf : g.lookupIdx a with
  | some i => exact ⟨i, rfl⟩
  | none =>
    rw [RGraph.lookupIdx, List.findIdx?_eq_none_iff] at hf
    have := hf a h
    simp at this

theorem wf_new {T : Type} : WFGraph (RGraph.new : RGraph T) := by
  constructor <;> simp [RGraph.new]

theorem wf_addNode {T : Type} (g : RGraph T) (a : T) (wf : WFGraph g)
    (ha : a ∉ g.nodes) : WFGraph (g.addNode a) := by
  have hn : (g.addNode a).nodes = g.nodes ++ [a] := rfl
  have hlen : (g.addNode a).nodes.length = g.nodes.length + 1 := by
    rw [hn]
    simp
  have hinD : ∀ i, (g.addNode a).reachIn.getD i []
      = if i < g.nodes.length then g.reachIn.getD i []
        else if i = g.nodes.length then [g.nodes.length] else [] := by
    intro i
    show (g.reachIn ++ [[g.nodes.length]]).getD i [] = _
    by_cases h1 : i < g.nodes.length
    · rw [if_pos h1, getDl_append_lt _ _ _ _ (by rw [wf.lenIn]; exact h1)]
    · rw [if_neg h1]
      by_cases h2 : i = g.nodes.length
      · subst h2
        rw [if_pos rfl]
        have hs := getDl_append_self g.reachIn [g.nodes.length] ([] : List Nat)
        rw [wf.lenIn] at hs
        exact hs
      · rw [if_neg h2]
        exact getDl_append_oob _ _ _ _ (by rw [wf.lenIn]; omega)
  have houtD : ∀ i, (g.addNode a).reachOut.getD i []
      = if i < g.nodes.length then g.reachOut.getD i []
        else if i = g.nodes.length then [g.nodes.length] else [] := by
    intro i
    show (g.reachOut ++ [[g.nodes.length]]).getD i [] = _
    by_cases h1 : i < g.nodes.length
    · rw [if_pos h1, getDl_append_lt _ _ _ _ (by rw [wf.lenOut]; exact h1)]
    · rw [if_neg h1]
      by_cases h2 : i = g.nodes.length
      · subst h2
        rw [if_pos rfl]
        have hs := getDl_append_self g.reachOut [g.nodes.length] ([] : List Nat)
        rw [wf.lenOut] at hs
        exact hs
      · rw [if_neg h2]
        exact getDl_append_oob _ _ _ _ (by rw [wf.lenOut]; omega)
  have hinOld : ∀ i, ¬ i < g.nodes.length → g.reachIn.getD i [] = [] := by
    intro i h
    exact List.getD_eq_default _ _ (by rw [wf.lenIn]; omega)
  have houtOld : ∀ i, ¬ i < g.nodes.length → g.reachOut.getD i [] = [] := by
    intro i h
    exact List.getD_eq_default _ _ (by rw [wf.lenOut]; omega)
  have hinM : ∀ i j, j ∈ (g.addNode a).reachIn.getD i [] ↔
      j ∈ g.reachIn.getD i [] ∨ (i = g.nodes.length ∧ j = g.nodes.length) := by
    intro i j
    rw [hinD]
    by_cases h1 : i < g.nodes.length
    · rw [if_pos h1]
      constructor
      · exact Or.inl
      · rintro (h | ⟨rfl, rfl⟩)
        · exact h
        · omega
    · rw [if_neg h1, hinOld i h1]
      by_cases h2 : i = g.nodes.length
      · subst h2
        simp
      · rw [if_neg h2]
        simp [h2]
  have houtM : ∀ i j, j ∈ (g.addNode a).reachOut.getD i [] ↔
      j ∈ g.reachOut.getD i [] ∨ (i = g.nodes.length ∧ j = g.nodes.length) := by
    intro i j
    rw [houtD]
    by_cases h1 : i < g.nodes.length
    · rw [if_pos h1]
      constructor
      · exact Or.inl
      · rintro (h | ⟨rfl, rfl⟩)
        · exact h
        · omega
    · rw [if_neg h1, houtOld i h1]
      by_cases h2 : i = g.nodes.length
      · subst h2
        simp
      · rw [if_neg h2]
        simp [h2]
  constructor
  · show (g.reachIn ++ [[g.nodes.length]]).length = (g.nodes ++ [a]).length
    simp [wf.lenIn]
  · show (g.reachOut ++ [[g.nodes.length]]).length = (g.nodes ++ [a]).length
    simp [wf.lenOut]
  · rw [hn]
    simp [List.nodup_append, wf.nodup]
    exact ha
  · intro i
    rw [hinD]
    by_cases h1 : i < g.nodes.length
    · rw [if_pos h1]
      exact wf.nodupIn i
    · rw [if_neg h1]
      by_cases h2 : i = g.nodes.length
      · rw [if_pos h2]
        exact List.nodup_singleton _
      · rw [if_neg h2]
        exact List.nodup_nil
  · intro i
    rw [houtD]
    by_cases h1 : i < g.nodes.length
    · rw [if_pos h1]
      exact wf.nodupOut i
    · rw [if_neg h1]
      by_cases h2 : i = g.nodes.length
      · rw [if_pos h2]
        exact List.nodup_singleton _
      · rw [if_neg h2]
        exact List.nodup_nil
  · intro i j hj
    rw [hlen]
    rcases (hinM i j).mp hj with h | ⟨_, rfl⟩
    · have := wf.boundIn i j h
      omega
    · omega
  · intro i j hj
    rw [hlen]
    rcases (houtM i j).mp hj with h | ⟨_, rfl⟩
    · have := wf.boundOut i j h
      omega
    · omega
  · intro i hi
    rw [hlen] at hi
    rw [houtM]
    by_cases h1 : i < g.nodes.length
    · exact Or.inl (wf.refl i h1)
    · exact Or.inr ⟨by omega, by omega⟩
  · intro i j
    rw [houtM, hinM, wf.symm i j]
    tauto
  · intro i j k h1 h2
    rw [houtM] at h1 h2 ⊢
    rcases h1 with h1 | ⟨rfl, rfl⟩
    · rcases h2 with h2 | ⟨rfl, rfl⟩
      · exact Or.inl (wf.trans i j k h1 h2)
      · have := wf.boundOut i _ h1
        omega
    · rcases h2 with h2 | ⟨_, rfl⟩
      · rw [houtOld _ (by omega)] at h2
        simp at h2
      · exact Or.inr ⟨rfl, rfl⟩

theorem getOrAdd_len_le {T : Type} [DecidableEq T] (g : RGraph T) (a : T) :
    g.nodes.length ≤ (g.getOrAdd a).2.nodes.length := by
  rw [RGraph.getOrAdd]
  cases g.lookupIdx a <;> simp [RGraph.addNode]

theorem wf_getOrAdd {T : Type} [DecidableEq T] (g : RGraph T) (a : T)
    (wf : WFGraph g) :
    WFGraph (g.getOrAdd a).2 ∧ (g.getOrAdd a).1 < (g.getOrAdd a).2.nodes.length := by
  rw [RGraph.getOrAdd]
  cases h : g.lookupIdx a with
  | some i => exact ⟨wf, lookupIdx_lt g a i h⟩
  | none =>
    have ha : a ∉ g.nodes := by
      intro hm
      obtain ⟨i, hi⟩ := lookupIdx_mem_some g a hm
      rw [h] at hi
      exact Option.noConfusion hi
    refine ⟨wf_addNode g a wf ha, ?_⟩
    show g.nodes.length < (g.addNode a).nodes.length
    simp [RGraph.addNode]

theorem setReachable_eq {T : Type} [DecidableEq T] (g : RGraph T) (a b : T)
    (ia : Nat) (g1 : RGraph T) (ib : Nat) (g2 : RGraph T)
    (h1 : g.getOrAdd a = (ia, g1)) (h2 : g1.getOrAdd b = (ib, g2)) :
    g.setReachable a b
      = crossAll (g2.reachIn.getD ia []) (g2.reachOut.getD ib []) g2 := by
  simp only [RGraph.setReachable, h1, h2]

theorem wf_setReachable {T : Type} [DecidableEq T] (g : RGraph T) (a b : T)
    (wf : WFGraph g) : WFGraph (g.setReachable a b) := by
  cases hga : g.getOrAdd a with
  | mk ia g1 =>
  cases hgb : g1.getOrAdd b with
  | mk ib g2 =>
  have hw1 := wf_getOrAdd g a wf
  rw [hga] at hw1
  have hw2 := wf_getOrAdd g1 b hw1.1
  rw [hgb] at hw2
  have wf2 : WFGraph g2 := hw2.1
  have hle : g1.nodes.length ≤ g2.nodes.length := by
    have := getOrAdd_len_le g1 b
    rw [hgb] at this
    exact this
  have hia2 : ia < g2.nodes.length := lt_of_lt_of_le hw1.2 hle
  have hib2 : ib < g2.nodes.length := hw2.2
  rw [setReachable_eq g a b ia g1 ib g2 hga hgb]
  have hFout : ∀ s ∈ g2.reachIn.getD ia [], s < g2.reachOut.length := by
    intro s hs
    rw [wf2.lenOut]
    exact wf2.boundIn ia s hs
  have hTin : ∀ d ∈ g2.reachOut.getD ib [], d < g2.reachIn.length := by
    intro d hd
    rw [wf2.lenIn]
    exact wf2.boundOut ib d hd
  have hout := crossAll_out (g2.reachOut.getD ib []) (g2.reachIn.getD ia []) g2
    (fun s hs => hFout s hs)
  have hin := crossAll_in (g2.reachOut.getD ib []) (g2.reachIn.getD ia []) g2
    (fun d hd => hTin d hd)
  have hnodes := crossAll_nodes (g2.reachOut.getD ib []) (g2.reachIn.getD ia []) g2
  constructor
  · rw [crossAll_lenIn, hnodes, wf2.lenIn]
  · rw [crossAll_lenOut, hnodes, wf2.lenOut]
  · rw [hnodes]
    exact wf2.nodup
  · exact crossAll_nodupIn _ _ _ wf2.nodupIn
  · exact crossAll_nodupOut _ _ _ wf2.nodupOut
  · intro i j hj
    rw [hnodes]
    rcases (hin i j).mp hj with h | ⟨hjF, _⟩
    · exact wf2.boundIn i j h
    · exact wf2.boundIn ia j hjF
  · intro i j hj
    rw [hnodes]
    rcases (hout i j).mp hj with h | ⟨_, hjT⟩
    · exact wf2.boundOut i j h
    · exact wf2.boundOut ib j hjT
  · intro i hi
    rw [hnodes] at hi
    exact (hout i i).mpr (Or.inl (wf2.refl i hi))
  · intro i j
    rw [hout i j, hin j i, wf2.symm i j]
  · intro i j k h1 h2
    rw [hout i j] at h1
    rw [hout j k] at h2
    rw [hout i k]
    rcases h1 with h1 | ⟨hiF, hjT⟩
    · rcases h2 with h2 | ⟨hjF, hkT⟩
      · exact Or.inl (wf2.trans i j k h1 h2)
      · have hja : ia ∈ g2.reachOut.getD j [] := (wf2.symm j ia).mpr hjF
        have : ia ∈ g2.reachOut.getD i [] := wf2.trans i j ia h1 hja
        exact Or.inr ⟨(wf2.symm i ia).mp this, hkT⟩
    · rcases h2 with h2 | ⟨_, hkT⟩
      · exact Or.inr ⟨hiF, wf2.trans ib j k hjT h2⟩
      · exact Or.inr ⟨hiF, hkT⟩

theorem wf_foldSet {T : Type} [DecidableEq T] :
    ∀ (ps : List (T × T)) (g : RGraph T), WFGraph g →
      WFGraph (ps.foldl (fun gg p => gg.setReachable p.1 p.2) g) := by
  intro ps
  induction ps with
  | nil => intro g h; exact h
  | cons p rest ih =>
    intro g h
    exact ih _ (wf_setReachable g p.1 p.2 h)

theorem wf_buildGraph {T : Type} [DecidableEq T] (ps : List (T × T)) :
    WFGraph (buildGraph ps) :=
  wf_foldSet ps RGraph.new wf_new

theorem coordsLe_antisymm {c d : Nat × Nat} (h1 : coordsLe c d = true)
    (h2 : coordsLe d c = true) : c = d := by
  simp only [coordsLe, Bool.or_eq_true, Bool.and_eq_true, decide_eq_true_eq,
    beq_iff_eq] at h1 h2
  rcases c with ⟨c1, c2⟩
  rcases d with ⟨d1, d2⟩
  simp only [Prod.mk.injEq]
  simp only at h1 h2
  omega

theorem hasAdjDup_sorted :
    ∀ ls : List Assumption, List.Sorted assumpKeyLe ls →
      (hasAdjDup ls = true ↔ ¬ (ls.map (fun a => a.coords)).Nodup) := by
  intro ls
  induction ls with
  | nil => intro h; simp [hasAdjDup]
  | cons a tail ih =>
    intro hs
    cases tail with
    | nil => simp [hasAdjDup]
    | cons b rest =>
      rw [List.sorted_cons] at hs
      obtain ⟨hab, hs2⟩ := hs
      show (a.coords == b.coords || hasAdjDup (b :: rest)) = true ↔ _
      by_cases hab2 : a.coords = b.coords
      · simp only [hab2, beq_self_eq_true, Bool.true_or, true_iff]
        intro hnd
        rw [List.map_cons, List.map_cons, List.nodup_cons] at hnd
        exact hnd.1 (by simp [hab2])
      · have hne : (a.coords == b.coords) = false := by
          simp [hab2]
        rw [hne, Bool.false_or, ih hs2]
        have hnotmem : a.coords ∉ (b :: rest).map (fun x => x.coords) := by
          intro hm
          rw [List.mem_map] at hm
          obtain ⟨z, hz, hcz⟩ := hm
          rcases List.mem_cons.mp hz with rfl | hz2
          · exact hab2 hcz.symm
          · have hbz : coordsLe b.coords z.coords = true :=
              (List.sorted_cons.mp hs2).1 z hz2
            rw [hcz] at hbz
            have hab3 : coordsLe a.coords b.coords = true := hab b (by simp)
            exact hab2 (coordsLe_antisymm hab3 hbz)
        have hsplit : ((a :: b :: rest).map (fun x => x.coords)).Nodup ↔
            a.coords ∉ (b :: rest).map (fun x => x.coords) ∧
              ((b :: rest).map (fun x => x.coords)).Nodup := by
          rw [List.map_cons, List.nodup_cons]
        constructor
        · intro h hn
          exact h (hsplit.mp hn).2
        · intro h hn
          exact h (hsplit.mpr ⟨hnotmem, hn⟩)

theorem lookupIdx_of_getIdx {T : Type} [DecidableEq T] (g : RGraph T)
    (hnd : g.nodes.Nodup) (i : Nat) (h : i < g.nodes.length) :
    g.lookupIdx (g.nodes.get ⟨i, h⟩) = some i := by
  rw [RGraph.lookupIdx, List.findIdx?_eq_some_iff_getElem]
  refine ⟨h, by simp, ?_⟩
  intro j hj
  simp only [decide_eq_true_eq]
  intro heq
  have : j = i := (List.Nodup.getElem_inj_iff hnd).mp (by simpa using heq)
  omega

theorem lookupIdx_mem {T : Type} [DecidableEq T] (g : RGraph T) (a : T) (i : Nat)
    (h : g.lookupIdx a = some i) : a ∈ g.nodes := by
  obtain ⟨hlt, hget⟩ := lookupIdx_getElem g a i h
  rw [← hget]
  exact List.get_mem _ _ _

theorem mem_reachList {T : Type} [DecidableEq T] (g : RGraph T) (wf : WFGraph g)
    (a : T) (ia : Nat) (hia : g.lookupIdx a = some ia) (x : T) :
    x ∈ (g.reachOut.getD ia []).filterMap (fun i => g.nodes.get? i) ↔
      g.isReachable a x = true := by
  constructor
  · intro hm
    rw [List.mem_filterMap] at hm
    obtain ⟨i, hiout, hget⟩ := hm
    obtain ⟨hlt, hgi⟩ := List.get?_eq_some.mp hget
    have hlook : g.lookupIdx x = some i := by
      rw [← hgi]
      exact lookupIdx_of_getIdx g wf.nodup i hlt
    rw [RGraph.isReachable, hia, hlook]
    exact List.elem_iff.mpr hiout
  · intro hr
    rw [RGraph.isReachable, hia] at hr
    cases hx : g.lookupIdx x with
    | none => rw [hx] at hr; exact absurd hr (by simp)
    | some ix =>
      rw [hx] at hr
      obtain ⟨hlt, hget⟩ := lookupIdx_getElem g x ix hx
      rw [List.mem_filterMap]
      exact ⟨ix, List.elem_iff.mp hr, by rw [List.get?_eq_get hlt, hget]⟩

theorem reachList_nodup {T : Type} [DecidableEq T] (g : RGraph T) (wf : WFGraph g)
    (ia : Nat) :
    ((g.reachOut.getD ia []).filterMap (fun i => g.nodes.get? i)).Nodup := by
  apply List.Nodup.filterMap _ (wf.nodupOut ia)
  intro i j x hxi hxj
  obtain ⟨hi, hgi⟩ := List.get?_eq_some.mp hxi
  obtain ⟨hj, hgj⟩ := List.get?_eq_some.mp hxj
  have heq : g.nodes.get ⟨i, hi⟩ = g.nodes.get ⟨j, hj⟩ := by rw [hgi, hgj]
  exact congrArg Fin.val ((List.Nodup.get_inj_iff wf.nodup).mp heq)

theorem isReachable_self_wf {T : Type} [DecidableEq T] (g : RGraph T)
    (wf : WFGraph g) (a : T) (ha : a ∈ g.nodes) : g.isReachable a a = true := by
  obtain ⟨i, hi⟩ := lookupIdx_mem_some g a ha
  simp only [RGraph.isReachable, hi]
  exact List.elem_iff.mpr (wf.refl i (lookupIdx_lt g a i hi))

theorem isReachable_trans_wf {T : Type} [DecidableEq T] (g : RGraph T)
    (wf : WFGraph g) (a b c : T) (h1 : g.isReachable a b = true)
    (h2 : g.isReachable b c = true) : g.isReachable a c = true := by
  cases ha : g.lookupIdx a with
  | none => rw [RGraph.isReachable, ha] at h1; exact absurd h1 (by simp)
  | some ia =>
    cases hb : g.lookupIdx b with
    | none => rw [RGraph.isReachable, hb] at h2; exact absurd h2 (by simp)
    | some ib =>
      cases hc : g.lookupIdx c with
      | none => rw [RGraph.isReachable, hb, hc] at h2; exact absurd h2 (by simp)
      | some ic =>
        rw [RGraph.isReachable, ha, hb] at h1
        rw [RGraph.isReachable, hb, hc] at h2
        rw [RGraph.isReachable, ha, hc]
        exact List.elem_iff.mpr
          (wf.trans ia ib ic (List.elem_iff.mp h1) (List.elem_iff.mp h2))

theorem isReachable_interned {T : Type} [DecidableEq T] (g : RGraph T) (a b : T)
    (h : g.isReachable a b = true) : a ∈ g.nodes ∧ b ∈ g.nodes := by
  cases ha : g.lookupIdx a with
  | none => rw [RGraph.isReachable, ha] at h; exact absurd h (by simp)
  | some ia =>
    cases hb : g.lookupIdx b with
    | none => rw [RGraph.isReachable, ha, hb] at h; exact absurd h (by simp)
    | some ib => exact ⟨lookupIdx_mem g a ia ha, lookupIdx_mem g b ib hb⟩

theorem isImpossibleA_iff (g : RGraph Assumption) (wf : WFGraph g)
    (a : Assumption) (ha : a ∈ g.nodes) :
    isImpossibleA g a = true ↔
      ∃ x y, g.isReachable a x = true ∧ g.isReachable a y = true ∧
        x ≠ y ∧ x.coords = y.coords := by
  obtain ⟨ia, hia⟩ := lookupIdx_mem_some g a ha
  have hreach : g.getReachable a
      = some ((g.reachOut.getD ia []).filterMap (fun i => g.nodes.get? i)) := by
    rw [RGraph.getReachable, hia]
    rfl
  set reach := (g.reachOut.getD ia []).filterMap (fun i => g.nodes.get? i) with hr
  have hperm : (List.insertionSort assumpKeyLe reach).Perm reach :=
    List.perm_insertionSort _ _
  have hsorted : List.Sorted assumpKeyLe (List.insertionSort assumpKeyLe reach) :=
    List.sorted_insertionSort _ _
  have hnd : reach.Nodup := reachList_nodup g wf ia
  simp only [isImpossibleA, hreach, sortByCoords]
  rw [hasAdjDup_sorted _ hsorted, (hperm.map (fun x => x.coords)).nodup_iff,
    List.nodup_map_iff_inj_on hnd]
  constructor
  · intro h
    push_neg at h
    obtain ⟨x, hx, y, hy, hcxy, hxy⟩ := h
    exact ⟨x, y, (mem_reachList g wf a ia hia x).mp hx,
      (mem_reachList g wf a ia hia y).mp hy, hxy, hcxy⟩
  · rintro ⟨x, y, hrx, hry, hxy, hcxy⟩ hall
    exact hxy (hall x ((mem_reachList g wf a ia hia x).mpr hrx)
      y ((mem_reachList g wf a ia hia y).mpr hry) hcxy)

theorem isImpossibleA_constant (g : RGraph Assumption) (wf : WFGraph g)
    (a b : Assumption) (hab : g.isReachable a b = true)
    (hba : g.isReachable b a = true) :
    isImpossibleA g a = isImpossibleA g b := by
  have ha : a ∈ g.nodes := (isReachable_interned g a b hab).1
  have hb : b ∈ g.nodes := (isReachable_interned g a b hab).2
  rw [Bool.eq_iff_iff, isImpossibleA_iff g wf a ha, isImpossibleA_iff g wf b hb]
  constructor
  · rintro ⟨x, y, hrx, hry, hxy, hcxy⟩
    exact ⟨x, y, isReachable_trans_wf g wf b a x hba hrx,
      isReachable_trans_wf g wf b a y hba hry, hxy, hcxy⟩
  · rintro ⟨x, y, hrx, hry, hxy, hcxy⟩
    exact ⟨x, y, isReachable_trans_wf g wf a b x hab hrx,
      isReachable_trans_wf g wf a b y hab hry, hxy, hcxy⟩

theorem sccsFold_spec {T : Type} [DecidableEq T] (g : RGraph T)
    (wf : WFGraph g) :
    ∀ (l : List T) (acc : List (List T) × List T),
      (∀ x ∈ l, x ∈ g.nodes) →
      (∀ scc ∈ acc.1, scc ≠ [] ∧
        ∀ x ∈ scc, x ∈ g.nodes ∧ ∀ y ∈ scc, g.isReachable x y = true) →
      (∀ x, x ∈ acc.2 ↔ ∃ scc ∈ acc.1, x ∈ scc) →
      (∀ scc ∈ (l.foldl (sccStep g) acc).1, scc ≠ [] ∧
        ∀ x ∈ scc, x ∈ g.nodes ∧ ∀ y ∈ scc, g.isReachable x y = true) ∧
      (∀ x, x ∈ (l.foldl (sccStep g) acc).2 ↔
        ∃ scc ∈ (l.foldl (sccStep g) acc).1, x ∈ scc) ∧
      (∀ x ∈ l, x ∈ (l.foldl (sccStep g) acc).2) ∧
      (∀ x ∈ acc.2, x ∈ (l.foldl (sccStep g) acc).2) := by
  intro l
  induction l with
  | nil =>
    intro acc _ hgood hvis
    exact ⟨hgood, hvis, by simp, fun x hx => hx⟩
  | cons a rest ih =>
    intro acc hl hgood hvis
    obtain ⟨result, visited⟩ := acc
    have ha : a ∈ g.nodes := hl a (by simp)
    have hfold : (a :: rest).foldl (sccStep g) (result, visited)
        = rest.foldl (sccStep g) (sccStep g (result, visited) a) := rfl
    by_cases hv : visited.contains a
    · have hv2 : a ∈ visited := List.elem_iff.mp hv
      have hstep : sccStep g (result, visited) a = (result, visited) := by
        simp [sccStep, hv2]
      rw [hfold, hstep]
      obtain ⟨ih1, ih2, ih3, ih4⟩ :=
        ih (result, visited) (fun x hx => hl x (by simp [hx])) hgood hvis
      refine ⟨ih1, ih2, ?_, ih4⟩
      intro x hx
      rcases List.mem_cons.mp hx with rfl | hx2
      · exact ih4 x (List.elem_iff.mp hv)
      · exact ih3 x hx2
    · obtain ⟨ia, hia⟩ := lookupIdx_mem_some g a ha
      have hreach : g.getReachable a
          = some ((g.reachOut.getD ia []).filterMap (fun i => g.nodes.get? i)) := by
        rw [RGraph.getReachable, hia]
        rfl
      set reach := (g.reachOut.getD ia []).filterMap (fun i => g.nodes.get? i)
        with hr
      set scc := reach.filter (fun b => g.isReachable b a) with hscc
      have hv2 : a ∉ visited := fun h => hv (List.elem_iff.mpr h)
      have hstep : sccStep g (result, visited) a
          = (result ++ [scc], visited ++ scc) := by
        simp [sccStep, hv2, hreach, hscc, hr]
      have hasc : a ∈ scc := by
        rw [hscc, List.mem_filter]
        exact ⟨(mem_reachList g wf a ia hia a).mpr (isReachable_self_wf g wf a ha),
          isReachable_self_wf g wf a ha⟩
      have hgood2 : ∀ s ∈ result ++ [scc], s ≠ [] ∧
          ∀ x ∈ s, x ∈ g.nodes ∧ ∀ y ∈ s, g.isReachable x y = true := by
        intro s hs
        rcases List.mem_append.mp hs with hs | hs
        · exact hgood s hs
        · rw [List.mem_singleton] at hs
          subst hs
          refine ⟨List.ne_nil_of_mem hasc, ?_⟩
          intro x hx
          rw [hscc, List.mem_filter] at hx
          obtain ⟨hxr, hxa⟩ := hx
          have hax : g.isReachable a x = true := (mem_reachList g wf a ia hia x).mp hxr
          refine ⟨(isReachable_interned g a x hax).2, ?_⟩
          intro y hy
          rw [hscc, List.mem_filter] at hy
          obtain ⟨hyr, _⟩ := hy
          have hay : g.isReachable a y = true := (mem_reachList g wf a ia hia y).mp hyr
          exact isReachable_trans_wf g wf x a y hxa hay
      have hvis2 : ∀ x, x ∈ visited ++ scc ↔ ∃ s ∈ result ++ [scc], x ∈ s := by
        intro x
        rw [List.mem_append]
        constructor
        · rintro (hx | hx)
          · obtain ⟨s, hs1, hs2⟩ := (hvis x).mp hx
            exact ⟨s, List.mem_append.mpr (Or.inl hs1), hs2⟩
          · exact ⟨scc, List.mem_append.mpr (Or.inr (by simp)), hx⟩
        · rintro ⟨s, hs1, hs2⟩
          rcases List.mem_append.mp hs1 with hs1 | hs1
          · exact Or.inl ((hvis x).mpr ⟨s, hs1, hs2⟩)
          · rw [List.mem_singleton] at hs1
            subst hs1
            exact Or.inr hs2
      rw [hfold, hstep]
      obtain ⟨ih1, ih2, ih3, ih4⟩ :=
        ih (result ++ [scc], visited ++ scc)
          (fun x hx => hl x (by simp [hx])) hgood2 hvis2
      refine ⟨ih1, ih2, ?_, ?_⟩
      · intro x hx
        rcases List.mem_cons.mp hx with rfl | hx2
        · exact ih4 x (List.mem_append.mpr (Or.inr hasc))
        · exact ih3 x hx2
      · intro x hx
        exact ih4 x (List.mem_append.mpr (Or.inl hx))

theorem sccs_spec {T : Type} [DecidableEq T] (g : RGraph T) (wf : WFGraph g) :
    (∀ scc ∈ g.sccs, scc ≠ [] ∧
      ∀ x ∈ scc, x ∈ g.nodes ∧ ∀ y ∈ scc, g.isReachable x y = true) ∧
    (∀ x ∈ g.nodes, ∃ scc ∈ g.sccs, x ∈ scc) := by
  obtain ⟨h1, h2, h3, _⟩ :=
    sccsFold_spec g wf g.nodes ([], []) (fun x hx => hx) (by simp) (by simp)
  exact ⟨h1, fun x hx => (h2 x).mp (h3 x hx)⟩

theorem getImpossible_iff (g : RGraph Assumption) (wf : WFGraph g)
    (a : Assumption) :
    a ∈ getImpossible g ↔ a ∈ g.nodes ∧ isImpossibleA g a = true := by
  obtain ⟨hgood, hcover⟩ := sccs_spec g wf
  rw [getImpossible, List.mem_flatten]
  constructor
  · rintro ⟨scc, hsccf, hmem⟩
    rw [List.mem_filter] at hsccf
    obtain ⟨hscc, hpred⟩ := hsccf
    obtain ⟨hne, hmembers⟩ := hgood scc hscc
    cases scc with
    | nil => exact absurd rfl hne
    | cons h0 tl =>
      have hpred2 : isImpossibleA g h0 = true := hpred
      have hmn := (hmembers a hmem).1
      have hah0 : g.isReachable a h0 = true := (hmembers a hmem).2 h0 (by simp)
      have hh0a : g.isReachable h0 a = true := (hmembers h0 (by simp)).2 a hmem
      refine ⟨hmn, ?_⟩
      rw [isImpossibleA_constant g wf a h0 hah0 hh0a]
      exact hpred2
  · rintro ⟨ha, himp⟩
    obtain ⟨scc, hscc, hmem⟩ := hcover a ha
    obtain ⟨hne, hmembers⟩ := hgood scc hscc
    refine ⟨scc, ?_, hmem⟩
    rw [List.mem_filter]
    refine ⟨hscc, ?_⟩
    cases scc with
    | nil => exact absurd rfl hne
    | cons h0 tl =>
      show isImpossibleA g h0 = true
      rw [← isImpossibleA_constant g wf a h0
        ((hmembers a hmem).2 h0 (by simp)) ((hmembers h0 (by simp)).2 a hmem)]
      exact himp

/-- C1: the claim fails on the code.  On the puzzle with row hints `[[2]]`
and column hints `[[1],[1],[1]]` the entry point `solve` returns
`Solved` with a fully-known grid of three `Filled` cells, which violates
the row hint (its row is one run of 3, not 2) and every column hint.  The
root cause is the shared line cache keyed by packed cells alone: hits
return assumption lists computed for other lines with other hints.  The
universally quantified `k + 12` fuel shows the value is the terminating
result of the Rust recursion and not a fuel artifact. -/
theorem solve_returns_solved_field_violating_hints : ∀ k : Nat,
    (solve (controversialSolver none) (k + 12)).map Prod.fst
        = some (.Solved [badField232])
      ∧ badField232.isSolved = true
      ∧ ¬ (controversialSolver none).hintsSatisfied badField232 := by
  intro k
  exact ⟨rfl, rfl, fun h => absurd (h.1 0 (by decide)) (by decide)⟩

/-- C2: the claim fails on the code.  On the spec scenario-D puzzle
(row hints `[[2]]`, column hints `[[1],[1],[1]]`) none of the three entry
points returns `Controversial`: `solve_by_lines` and `solve_2sat` return
`Unsolved` (both with `max_depth` absent and at the CLI default 3), and
`solve` returns a bogus `Solved` — all because stale hits in the
cells-only line cache mask the contradiction. -/
theorem controversial_puzzle_not_detected : ∀ k : Nat,
    (solveByLines (controversialSolver none) (k + 12)).map Prod.fst
        = some (.Unsolved staleChanges4)
      ∧ (solve2sat (controversialSolver none) (k + 12)).map Prod.fst
        = some (.Unsolved staleChanges4)
      ∧ (solve2sat (controversialSolver (some 3)) (k + 12)).map Prod.fst
        = some (.Unsolved staleChanges4)
      ∧ (solve (controversialSolver (some 3)) (k + 14)).map Prod.fst
        = some (.Solved [badField232])
      ∧ (solve (controversialSolver none) (k + 14)).map Prod.fst
        = some (.Solved [badField232]) := by
  intro k
  exact ⟨rfl, rfl, rfl, rfl, rfl⟩

/-- C3: the claim fails on the code.  The cache key of `Line::solve` holds
the packed cells only — not the hints and not the line identity — and the
cache is shared by every line of the solver.  Solving row 0 (hints `[1]`,
cells `[Unknown]`) populates the cache; row 1 (hints `[]`, same single
`Unknown` cell) then hits that entry and returns the assumption
`(0,0) ↦ Filled` computed for row 0, while its own uncached propagator
result is `(1,0) ↦ Empty`. -/
theorem line_solve_cache_ignores_hints :
    (lineSolveC .Row 1 [] [CellValue.Unknown]
          (lineSolveC .Row 0 [1] [CellValue.Unknown] []).2).1
        = some [⟨(0, 0), .Filled⟩]
      ∧ lineDoSolve .Row 1 [] [CellValue.Unknown]
        = some [⟨(1, 0), .Empty⟩] := by
  exact ⟨rfl, rfl⟩

/-- C5 (counterexample): the CLI maps `--max-depth 0` to `None`, and with
`max_depth` absent the search is not disabled — on the ambiguous 2×2
puzzle `solve` returns `Solved` where the harness alone returns
`Unsolved []`.  Under the other reading (`max_depth = Some 0`) the claim
also fails: on the scenario-D puzzle `solve` returns `Unsolved` with a
change list of seven entries where the harness returns four. -/
theorem cli_zero_counterexample :
    cliMaxDepth 0 = none
      ∧ (solve ambiguousSolver 8).map Prod.fst
        = some (.Solved [ambiguousFirstSolution])
      ∧ (solveByLines ambiguousSolver 8).map Prod.fst = some (.Unsolved [])
      ∧ (solve (controversialSolver (some 0)) 12).map Prod.fst
        = some (.Unsolved staleChanges7)
      ∧ (solveByLines (controversialSolver (some 0)) 12).map Prod.fst
        = some (.Unsolved staleChanges4) := by
  exact ⟨rfl, rfl, rfl, rfl, rfl⟩

/-- C5 (amended): the CLI flag value 0 maps to an absent `max_depth`;
with `max_depth` absent `max_depth_reached` never triggers, so 0 disables
the depth limit rather than the search; and with `max_depth = Some 0`
every speculative recursion below the top level (depth ≥ 1) returns
`Unsolved []` immediately, i.e. no case-splitting happens beneath depth
0 — though the top-level result may still differ from the harness's in
its accumulated change list. -/
theorem max_depth_zero_amended :
    ∀ (rh ch : List (List Nat)) (fa : Bool),
      cliMaxDepth 0 = none
        ∧ (∀ depth, Solver.maxDepthReached ⟨rh, ch, none, fa⟩ depth = false)
        ∧ (∀ fuel f depth c,
            doSolve ⟨rh, ch, some 0, fa⟩ fuel f (depth + 1) c
              = some (.Unsolved [], c)) := by
  intro rh ch fa
  refine ⟨rfl, fun depth => rfl, fun fuel f depth c => ?_⟩
  have hreach : Solver.maxDepthReached ⟨rh, ch, some 0, fa⟩ (depth + 1) = true := by
    simp [Solver.maxDepthReached]
  cases fuel <;> simp [doSolve, hreach]

/-- C10: `is_reachable` is total and returns `false` whenever either
argument was never interned in the graph: both lookups are checked with an
early `false` return before any set is indexed. -/
theorem is_reachable_false_on_uninterned {T : Type} [DecidableEq T]
    (g : RGraph T) (a b : T) (h : a ∉ g.nodes ∨ b ∉ g.nodes) :
    g.isReachable a b = false := by
  rcases h with h | h
  · have : g.lookupIdx a = none := by
      simp only [RGraph.lookupIdx, List.findIdx?_eq_none_iff]
      intro x hx
      simp only [decide_eq_false_iff_not]
      rintro rfl
      exact h hx
    simp [RGraph.isReachable, this]
  · have hb : g.lookupIdx b = none := by
      simp only [RGraph.lookupIdx, List.findIdx?_eq_none_iff]
      intro x hx
      simp only [decide_eq_false_iff_not]
      rintro rfl
      exact h hx
    cases ha : g.lookupIdx a <;> simp [RGraph.isReachable, ha, hb]

/-- Witness for C10 at a concrete graph: node 5 was never interned in the
graph built from the single edge 1 → 2. -/
theorem is_reachable_false_on_uninterned_witness :
    (buildGraph [(1, 2)] : RGraph Nat).isReachable 5 1 = false :=
  is_reachable_false_on_uninterned (buildGraph [(1, 2)]) 5 1 (Or.inl (by decide))

/-- C8: in the reachability graph built by any sequence of `set_reachable`
calls from the empty graph, every interned node is reachable from itself,
an index `j` is in the out-set of `i` exactly when `i` is in the in-set of
`j`, and `is_reachable` is transitively closed. -/
theorem reachability_graph_invariants {T : Type} [DecidableEq T]
    (ps : List (T × T)) :
    (∀ a, a ∈ (buildGraph ps).nodes → (buildGraph ps).isReachable a a = true) ∧
    (∀ i j, j ∈ (buildGraph ps).reachOut.getD i [] ↔
      i ∈ (buildGraph ps).reachIn.getD j []) ∧
    (∀ a b c, (buildGraph ps).isReachable a b = true →
      (buildGraph ps).isReachable b c = true →
      (buildGraph ps).isReachable a c = true) := by
  have wf : WFGraph (buildGraph ps) := wf_buildGraph ps
  refine ⟨?_, wf.symm, ?_⟩
  · intro a ha
    obtain ⟨i, hi⟩ := lookupIdx_mem_some _ a ha
    have hlt := lookupIdx_lt _ a i hi
    simp only [RGraph.isReachable, hi]
    exact List.elem_iff.mpr (wf.refl i hlt)
  · intro a b c h1 h2
    cases ha : (buildGraph ps).lookupIdx a with
    | none => rw [RGraph.isReachable, ha] at h1; exact absurd h1 (by simp)
    | some ia =>
      cases hb : (buildGraph ps).lookupIdx b with
      | none => rw [RGraph.isReachable, hb] at h2; exact absurd h2 (by simp)
      | some ib =>
        cases hc : (buildGraph ps).lookupIdx c with
        | none => rw [RGraph.isReachable, hb, hc] at h2; exact absurd h2 (by simp)
        | some ic =>
          rw [RGraph.isReachable, ha, hb] at h1
          rw [RGraph.isReachable, hb, hc] at h2
          rw [RGraph.isReachable, ha, hc]
          exact List.elem_iff.mpr
            (wf.trans ia ib ic (List.elem_iff.mp h1) (List.elem_iff.mp h2))

/-- Witness for C8: in the graph built from the edges 1 → 2 and 2 → 3, the
interned node 1 reaches itself, and reaches 3 by transitivity. -/
theorem reachability_graph_invariants_witness :
    (buildGraph [(1, 2), (2, 3)] : RGraph Nat).isReachable 1 1 = true ∧
    (buildGraph [(1, 2), (2, 3)] : RGraph Nat).isReachable 1 3 = true :=
  ⟨(reachability_graph_invariants [(1, 2), (2, 3)]).1 1 (by decide),
   (reachability_graph_invariants [(1, 2), (2, 3)]).2.2 1 2 3 (by decide) (by decide)⟩

/-- C9: on a well-formed graph whose interned assumptions all carry known
values, `get_impossible` yields exactly the interned assumptions whose
forward-reachable set holds a Filled and an Empty assumption at the same
cell, and `is_impossible` is constant on mutually reachable nodes, so
testing one representative per strongly connected component is correct. -/
theorem get_impossible_correct (g : RGraph Assumption) (wf : WFGraph g)
    (hvals : ∀ n ∈ g.nodes, n.val ≠ CellValue.Unknown) :
    (∀ a, a ∈ getImpossible g ↔ a ∈ g.nodes ∧ ∃ x y,
      g.isReachable a x = true ∧ g.isReachable a y = true ∧
      x.coords = y.coords ∧ x.val = CellValue.Filled ∧
      y.val = CellValue.Empty) ∧
    (∀ a b, g.isReachable a b = true → g.isReachable b a = true →
      isImpossibleA g a = isImpossibleA g b) := by
  refine ⟨?_, fun a b hab hba => isImpossibleA_constant g wf a b hab hba⟩
  intro a
  rw [getImpossible_iff g wf a]
  constructor
  · rintro ⟨ha, himp⟩
    rw [isImpossibleA_iff g wf a ha] at himp
    obtain ⟨x, y, hrx, hry, hxy, hcxy⟩ := himp
    have hxv := hvals x (isReachable_interned g a x hrx).2
    have hyv := hvals y (isReachable_interned g a y hry).2
    have hvne : x.val ≠ y.val := by
      intro hv
      apply hxy
      cases x
      cases y
      simp_all
    refine ⟨ha, ?_⟩
    cases hxval : x.val with
    | Unknown => exact absurd hxval hxv
    | Filled =>
      cases hyval : y.val with
      | Unknown => exact absurd hyval hyv
      | Empty => exact ⟨x, y, hrx, hry, hcxy, hxval, hyval⟩
      | Filled => exact absurd (hxval.trans hyval.symm) hvne
    | Empty =>
      cases hyval : y.val with
      | Unknown => exact absurd hyval hyv
      | Filled => exact ⟨y, x, hry, hrx, hcxy.symm, hyval, hxval⟩
      | Empty => exact absurd (hxval.trans hyval.symm) hvne
  · rintro ⟨ha, x, y, hrx, hry, hcxy, hxf, hye⟩
    refine ⟨ha, ?_⟩
    rw [isImpossibleA_iff g wf a ha]
    refine ⟨x, y, hrx, hry, ?_, hcxy⟩
    intro he
    rw [he] at hxf
    exact CellValue.noConfusion (hxf.symm.trans hye)

/-- Witness for C9: in the graph where the assumption Filled(1,0) reaches
both Filled(0,0) and Empty(0,0), `get_impossible` returns it. -/
theorem get_impossible_correct_witness :
    (⟨(1, 0), CellValue.Filled⟩ : Assumption) ∈
      getImpossible (buildGraph
        [((⟨(1, 0), CellValue.Filled⟩ : Assumption), ⟨(0, 0), CellValue.Filled⟩),
         (⟨(1, 0), CellValue.Filled⟩, ⟨(0, 0), CellValue.Empty⟩)]) :=
  ((get_impossible_correct _ (wf_buildGraph _) (by decide)).1 _).mpr
    ⟨by decide, ⟨(0, 0), CellValue.Filled⟩, ⟨(0, 0), CellValue.Empty⟩,
      by decide, by decide, rfl, rfl, rfl⟩

end Nonogram
